import Mathlib

/-!
Verification development for the fund-analysis-tool repository.

The Python sources are embedded shallowly: prices, cash, shares and
returns become rational numbers (floating point rounding is out of
scope), pandas NaN becomes `Option`, date-indexed series become lists,
and the per-date mutation loops become structural recursion over lists.
Each embedded definition carries a comment naming the Python function it
translates.
-/

/-- A per-date decision of the threshold logic (Decision avoids clashing with Mathlib names): buy, sell(-all) or hold. -/
inductive Decision where
  | buy
  | sell
  | hold
deriving DecidableEq, Repr

namespace App

/-- One row of the aligned fund table produced by app.get_fund_data: the
unit NAV (单位净值) and the is_trading_day flag.  get_fund_data sets the
flag to True on every aligned row; the last_trading_date side column is
not needed by any claim and is omitted. -/
structure Row where
  nav : ℚ
  isTradingDay : Bool
deriving DecidableEq, Repr

/-- The reference_nav column of app.run_backtest:
fund_data['单位净值'].shift(lookback_period); `none` models NaN. -/
def referenceNav (navs : List ℚ) (lookback i : ℕ) : Option ℚ :=
  if lookback ≤ i then navs.get? (i - lookback) else none

/-- The lookback_return column of app.run_backtest:
(单位净值 / reference_nav - 1) * 100; `none` models NaN. -/
def lookbackReturn (navs : List ℚ) (lookback i : ℕ) : Option ℚ :=
  (referenceNav navs lookback i).bind fun r =>
    (navs.get? i).map fun nav => (nav / r - 1) * 100

/-- The mutable state of the threshold simulation in app.run_backtest:
thr_cash, thr_shares and total_thr_invested. -/
structure ThrState where
  cash : ℚ
  shares : ℚ
  invested : ℚ
deriving DecidableEq, Repr

/-- A transaction appended to thr_transactions in app.run_backtest.
`cashBefore` and `cashAfter` instrument the cash balance around the
trade (the Python dict records date/type/price/shares/value/reason). -/
structure Txn where
  idx : ℕ
  kind : Decision
  price : ℚ
  shares : ℚ
  value : ℚ
  cashBefore : ℚ
  cashAfter : ℚ
deriving DecidableEq, Repr

/-- The comparator chain of app.run_backtest at one date: the sell branch
(thr_shares > 0 and lookback_return >= sell_threshold) is checked first,
then the buy branch (lookback_return <= buy_threshold), else hold. -/
def thrClassify (r buyT sellT sharesHeld : ℚ) : Decision :=
  if 0 < sharesHeld ∧ sellT ≤ r then Decision.sell
  else if r ≤ buyT then Decision.buy
  else Decision.hold

/-- The strategy parameters fed to app.run_backtest. -/
structure ThrParams where
  buyAmount : ℚ
  buyThreshold : ℚ
  sellThreshold : ℚ
  lookback : ℕ
deriving DecidableEq, Repr

/-- Output of one loop iteration of app.run_backtest: successor state, the
classification taken, the optional transaction, and current_value as
appended to thr_portfolio_value_list. -/
structure StepOut where
  st : ThrState
  act : Decision
  txn : Option Txn
  value : ℚ
deriving Repr

/-- One iteration of the `for date, row in fund_data.iterrows()` loop of
app.run_backtest (threshold part, lines 260-291). -/
def thrStep (P : ThrParams) (rows : List Row) (i : ℕ) (st : ThrState) : StepOut :=
  let row := rows.getD i ⟨0, false⟩
  match lookbackReturn (rows.map Row.nav) P.lookback i, row.isTradingDay with
  | some r, true =>
    match thrClassify r P.buyThreshold P.sellThreshold st.shares with
    | Decision.sell =>
      let saleValue := st.shares * row.nav
      let st1 : ThrState := ⟨st.cash + saleValue, 0, st.invested⟩
      ⟨st1, Decision.sell, some ⟨i, Decision.sell, row.nav, st.shares, saleValue, st.cash, st1.cash⟩,
        st1.cash⟩
    | Decision.buy =>
      let amt := P.buyAmount
      let sharesToBuy := amt / row.nav
      let st1 : ThrState :=
        if amt ≤ st.cash then ⟨st.cash - amt, st.shares + sharesToBuy, st.invested⟩
        else ⟨0, st.shares + sharesToBuy, st.invested + (amt - st.cash)⟩
      ⟨st1, Decision.buy, some ⟨i, Decision.buy, row.nav, sharesToBuy, amt, st.cash, st1.cash⟩,
        st1.cash + st1.shares * row.nav⟩
    | Decision.hold => ⟨st, Decision.hold, none, st.cash + st.shares * row.nav⟩
  | _, _ => ⟨st, Decision.hold, none, st.cash + st.shares * row.nav⟩

/-- Accumulated outputs of the threshold simulation loop: final state, the
post-date states, per-date classifications, the transaction log and the
portfolio value list. -/
structure ThrResult where
  st : ThrState
  states : List ThrState
  actions : List Decision
  txns : List Txn
  values : List ℚ
deriving Repr

/-- The threshold simulation loop of app.run_backtest over a list of row
indices, threaded left to right. -/
def thrRun (P : ThrParams) (rows : List Row) : List ℕ → ThrState → ThrResult
  | [], st => ⟨st, [], [], [], []⟩
  | i :: is, st =>
    let o := thrStep P rows i st
    let r := thrRun P rows is o.st
    ⟨r.st, o.st :: r.states, o.act :: r.actions,
      (match o.txn with
       | none => r.txns
       | some t => t :: r.txns),
      o.value :: r.values⟩

/-- The threshold part of app.run_backtest: iterate the per-date step over
all rows starting from zero cash, zero shares, zero invested capital. -/
def run_backtest (P : ThrParams) (rows : List Row) : ThrResult :=
  thrRun P rows (List.range rows.length) ⟨0, 0, 0⟩

end App

namespace Monitor

/-- The row with the largest date among a list of (date, nav) pairs,
keeping the earlier entry on ties; this is sort_values(date,
ascending=False).iloc[0] in fund_monitor.core.get_reference_nav.  Dates
are rationals-free epoch day numbers. -/
def argmaxDate : List (ℕ × ℚ) → Option (ℕ × ℚ)
  | [] => none
  | p :: l => some ((argmaxDate l).elim p fun q => if q.1 > p.1 then q else p)

/-- fund_monitor.core.get_reference_nav: the reference date target is
today minus lookback_period CALENDAR days (datetime subtraction), and the
reference row is the most recent history row on or before that target.
Returns (reference_nav, reference_date); `none` models the empty-filter
warning path. -/
def get_reference_nav (hist : List (ℕ × ℚ)) (today lookback : ℕ) : Option (ℚ × ℕ) :=
  (argmaxDate (hist.filter fun p => decide (p.1 ≤ today - lookback))).map fun p => (p.2, p.1)

/-- The comparator chain of fund_monitor.core.get_strategy_advice: the buy
branch (estimated_return <= buy_threshold) is checked FIRST, then the
sell branch; there is no holdings guard. -/
def adviceClassify (estReturn buyT sellT : ℚ) : Decision :=
  if estReturn ≤ buyT then Decision.buy
  else if sellT ≤ estReturn then Decision.sell
  else Decision.hold

/-- The classification part of fund_monitor.core.get_strategy_advice: fetch
the reference NAV, compute estimated_return = (estimated_nav /
reference_nav - 1) * 100 and classify. -/
def get_strategy_advice (hist : List (ℕ × ℚ)) (today lookback : ℕ)
    (estimatedNav buyT sellT : ℚ) : Option (Decision × ℚ × ℕ) :=
  (get_reference_nav hist today lookback).map fun rn =>
    (adviceClassify ((estimatedNav / rn.1 - 1) * 100) buyT sellT, rn.1, rn.2)

/-- Reference lookup as the spec/claim describes the Advisory Evaluator
(and as the app.py advice view implements it): walk backward exactly
`lookback` trading days through the recorded trading days, i.e.
past_data.iloc[-lookback] over the date-ascending rows strictly before
today.  Stated from the claim for comparison with get_reference_nav. -/
def walkBackReference (past : List (ℕ × ℚ)) (lookback : ℕ) : Option (ℕ × ℚ) :=
  past.get? (past.length - lookback)

theorem argmaxDate_spec (l : List (ℕ × ℚ)) (p : ℕ × ℚ) (h : argmaxDate l = some p) :
    p ∈ l ∧ ∀ q ∈ l, q.1 ≤ p.1 := by
  induction l generalizing p with
  | nil => cases h
  | cons x xs ih =>
    rw [argmaxDate] at h
    cases hrec : argmaxDate xs with
    | none =>
      rw [hrec] at h
      have hx : x = p := Option.some.inj h
      subst hx
      have hxs : xs = [] := by
        cases xs with
        | nil => rfl
        | cons y ys => rw [argmaxDate] at hrec; cases hrec
      subst hxs
      refine ⟨List.mem_cons_self _ _, fun q hq => ?_⟩
      rcases List.mem_cons.mp hq with hq | hq
      · exact le_of_eq (congrArg Prod.fst hq)
      · cases hq
    | some q =>
      rw [hrec] at h
      have hform : (if q.1 > x.1 then q else x) = p := Option.some.inj h
      rcases ih q hrec with ⟨hqmem, hqmax⟩
      by_cases hgt : q.1 > x.1
      · rw [if_pos hgt] at hform
        subst hform
        refine ⟨List.mem_cons_of_mem _ hqmem, fun a ha => ?_⟩
        rcases List.mem_cons.mp ha with ha | ha
        · exact le_of_lt (lt_of_eq_of_lt (congrArg Prod.fst ha) hgt)
        · exact hqmax a ha
      · rw [if_neg hgt] at hform
        subst hform
        refine ⟨List.mem_cons_self _ _, fun a ha => ?_⟩
        rcases List.mem_cons.mp ha with ha | ha
        · exact le_of_eq (congrArg Prod.fst ha)
        · exact le_trans (hqmax a ha) (le_of_not_lt hgt)

theorem get_reference_nav_spec (hist : List (ℕ × ℚ)) (today lookback : ℕ)
    (nav : ℚ) (d : ℕ) (h : get_reference_nav hist today lookback = some (nav, d)) :
    (d, nav) ∈ hist ∧ d ≤ today - lookback ∧
      ∀ q ∈ hist, q.1 ≤ today - lookback → q.1 ≤ d := by
  unfold get_reference_nav at h
  cases harg : argmaxDate (hist.filter fun p => decide (p.1 ≤ today - lookback)) with
  | none => rw [harg] at h; cases h
  | some p =>
    rw [harg] at h
    have h2 : ((p.2, p.1) : ℚ × ℕ) = (nav, d) := Option.some.inj h
    have hnav : p.2 = nav := congrArg Prod.fst h2
    have hd : p.1 = d := congrArg Prod.snd h2
    subst hnav
    subst hd
    rcases argmaxDate_spec _ _ harg with ⟨hmem, hmax⟩
    have hmem2 := List.mem_filter.mp hmem
    refine ⟨hmem2.1, by simpa using hmem2.2, fun q hq hqle => ?_⟩
    exact hmax q (List.mem_filter.mpr ⟨hq, by simpa using hqle⟩)

end Monitor

/-- C1 counterexample: the Advisory Evaluator does not reproduce the
backtest classification, and does not locate its reference by walking
back trading days.  With rows of NAV 1 then 11/10, lookback 1,
buy_threshold -5, sell_threshold 5, the backtest classifies the last
date as hold (its sell branch requires thr_shares > 0 and no shares were
ever bought), while the Advisory Evaluator called with estimated_price =
price of that date and the identical reference price 1 classifies sell.
Moreover on history with trading days 0,2,4,6,8 (every other calendar
day) and lookback 2, get_reference_nav picks date 8 (calendar-day
subtraction) while walking back exactly 2 recorded trading days lands on
date 6. -/
theorem advisory_backtest_mismatch :
    (App.run_backtest ⟨1000, -5, 5, 1⟩ [⟨1, true⟩, ⟨11/10, true⟩]).actions
      = [Decision.hold, Decision.hold] ∧
    Monitor.get_strategy_advice [(0, 1)] 1 1 (11/10) (-5) 5
      = some (Decision.sell, 1, 0) ∧
    Monitor.get_reference_nav [(0, 1), (2, 2), (4, 3), (6, 4), (8, 5)] 10 2 = some (5, 8) ∧
    Monitor.walkBackReference [(0, 1), (2, 2), (4, 3), (6, 4), (8, 5)] 2 = some (6, 4) := by
  refine ⟨?_, ?_, ?_, ?_⟩ <;> with_unfolding_all rfl

/-- C1 amended: the Advisory Evaluator checks buy before sell with no
holdings guard, and locates its reference as the most recent recorded
row on or before today minus lookback CALENDAR days (not a count of
trading days).  Its classification agrees with the backtest comparator
at equal inputs (same lookback return and thresholds) provided
buy_threshold < sell_threshold and, whenever the sell threshold is
reached, the backtest holds a positive share balance. -/
theorem advisory_backtest_amended
    (r buyT sellT sharesHeld : ℚ) (hist : List (ℕ × ℚ)) (today lookback d : ℕ) (nav : ℚ)
    (hbs : buyT < sellT) (hsh : 0 < sharesHeld ∨ r < sellT)
    (href : Monitor.get_reference_nav hist today lookback = some (nav, d)) :
    Monitor.adviceClassify r buyT sellT = App.thrClassify r buyT sellT sharesHeld ∧
    (d, nav) ∈ hist ∧ d ≤ today - lookback ∧
      ∀ q ∈ hist, q.1 ≤ today - lookback → q.1 ≤ d := by
  refine ⟨?_, Monitor.get_reference_nav_spec hist today lookback nav d href⟩
  unfold Monitor.adviceClassify App.thrClassify
  by_cases hb : r ≤ buyT
  · have hns : ¬ (0 < sharesHeld ∧ sellT ≤ r) := by
      rintro ⟨-, hs⟩
      exact absurd (le_trans hs hb) (not_le.mpr hbs)
    rw [if_pos hb, if_neg hns, if_pos hb]
  · by_cases hs : sellT ≤ r
    · have hpos : 0 < sharesHeld := hsh.resolve_right (not_lt.mpr hs)
      rw [if_neg hb, if_pos hs, if_pos ⟨hpos, hs⟩]
    · rw [if_neg hb, if_neg hs, if_neg (fun hc => hs hc.2), if_neg hb]

namespace FundBacktest

/-- State of FundBacktester._simulate_threshold_strategy in
fund_backtest.py: the running share and cash balances. -/
structure SimState where
  shares : ℚ
  cash : ℚ
deriving DecidableEq, Repr

/-- One iteration of the loop in _simulate_threshold_strategy
(fund_backtest.py lines 287-318): the BUY branch (lookback_return <=
buy_threshold and cash > 0) is checked first; the sell branch
(lookback_return >= sell_threshold and shares > 0) sits in the elif.
Buys use min(cash, initial_amount * 0.2), sells liquidate 30% of the
shares.  Both thresholds are modelled as supplied (not None). -/
def simStep (initialAmount buyT sellT : ℚ) (lookback : ℕ) (navs : List ℚ)
    (i : ℕ) (st : SimState) : SimState × Decision :=
  if lookback ≤ i then
    let nav := navs.getD i 0
    let lookbackNav := navs.getD (i - lookback) 0
    let lookbackReturn := (nav / lookbackNav - 1) * 100
    if lookbackReturn ≤ buyT ∧ 0 < st.cash then
      let buyAmount := min st.cash (initialAmount * (2 / 10))
      (⟨st.shares + buyAmount / nav, st.cash - buyAmount⟩, Decision.buy)
    else if sellT ≤ lookbackReturn ∧ 0 < st.shares then
      let sharesToSell := st.shares * (3 / 10)
      (⟨st.shares - sharesToSell, st.cash + sharesToSell * nav⟩, Decision.sell)
    else (st, Decision.hold)
  else (st, Decision.hold)

/-- The per-date loop of _simulate_threshold_strategy over row indices,
returning the final state and the per-date actions. -/
def simRun (initialAmount buyT sellT : ℚ) (lookback : ℕ) (navs : List ℚ) :
    List ℕ → SimState → SimState × List Decision
  | [], st => (st, [])
  | i :: is, st =>
    let o := simStep initialAmount buyT sellT lookback navs i st
    let r := simRun initialAmount buyT sellT lookback navs is o.1
    (r.1, o.2 :: r.2)

/-- _simulate_threshold_strategy: fold over all dates starting from zero
shares and cash = initial_amount. -/
def simulate_threshold_strategy (initialAmount buyT sellT : ℚ) (lookback : ℕ)
    (navs : List ℚ) : SimState × List Decision :=
  simRun initialAmount buyT sellT lookback navs (List.range navs.length) ⟨0, initialAmount⟩

end FundBacktest

namespace Backtester

/-- The three mutually exclusive allocation branches of
fund_backtester.backtester.run_backtest: is_dca mode, fixed
trade_amount mode (trade_amount truthy) and full-allocation mode
(trade_amount None or 0, not DCA). -/
inductive Mode where
  | dca
  | fixed (amt : ℚ)
  | full
deriving DecidableEq, Repr

/-- The daily portfolio state of backtester.run_backtest: held shares
and cash (holdings and total are derived per date). -/
structure Port where
  shares : ℚ
  cash : ℚ
deriving DecidableEq, Repr

/-- One iteration of the date loop of backtester.run_backtest (lines
33-132).  The sell branch (non-DCA, signal -1, positive shares) is
checked first; then, by mode: DCA invests the signal amount when cash
covers it, fixed mode invests trade_amount when signal is 1 and cash
covers it, full mode invests all cash when signal is 1 and cash is
positive (replacing the share balance).  Commission is deducted from
the traded cash amount. -/
def btStep (mode : Mode) (rate : ℚ) (price signal : ℚ) (st : Port) : Port :=
  if mode ≠ Mode.dca ∧ signal = -1 ∧ 0 < st.shares then
    let valueSold := st.shares * price
    let commission := valueSold * rate
    ⟨0, st.cash + (valueSold - commission)⟩
  else
    match mode with
    | Mode.dca =>
      if 0 < signal ∧ signal ≤ st.cash then
        ⟨st.shares + (signal - signal * rate) / price, st.cash - signal⟩
      else st
    | Mode.fixed amt =>
      if signal = 1 ∧ amt ≤ st.cash then
        ⟨st.shares + (amt - amt * rate) / price, st.cash - amt⟩
      else st
    | Mode.full =>
      if signal = 1 ∧ 0 < st.cash then
        ⟨(st.cash - st.cash * rate) / price, 0⟩
      else st

/-- The per-date fold of backtester.run_backtest over (close, signal)
pairs, collecting the end-of-date states. -/
def btRunStates (mode : Mode) (rate : ℚ) : List (ℚ × ℚ) → Port → List Port
  | [], _ => []
  | (p, s) :: rest, st =>
    let st1 := btStep mode rate p s st
    st1 :: btRunStates mode rate rest st1

/-- The final settlement of backtester.run_backtest: for a DCA run with
remaining shares, liquidate them at the last close net of commission. -/
def btSettle (mode : Mode) (rate lastPrice : ℚ) (st : Port) : Port :=
  if mode = Mode.dca ∧ 0 < st.shares then
    let valueSold := st.shares * lastPrice
    ⟨0, st.cash + (valueSold - valueSold * rate)⟩
  else st

/-- backtester.run_backtest: fold the per-date step from shares 0 and
cash = initial_capital, then apply the final DCA settlement to the last
state; returns the state trace and the settled final state. -/
def run_backtest (mode : Mode) (rate initialCapital : ℚ) (data : List (ℚ × ℚ)) :
    List Port × Port :=
  let states := btRunStates mode rate data ⟨0, initialCapital⟩
  (states,
    btSettle mode rate ((data.getLast?).elim 0 Prod.fst)
      ((states.getLast?).elim ⟨0, initialCapital⟩ id))

theorem btStep_nonneg (mode : Mode) (rate price signal : ℚ) (st : Port)
    (hrate0 : 0 ≤ rate) (hrate1 : rate ≤ 1) (hprice : 0 ≤ price)
    (hamt : ∀ a : ℚ, mode = Mode.fixed a → 0 ≤ a)
    (hshares : 0 ≤ st.shares) (hcash : 0 ≤ st.cash) :
    0 ≤ (btStep mode rate price signal st).shares ∧
      0 ≤ (btStep mode rate price signal st).cash := by
  have hsell : ∀ v : ℚ, 0 ≤ v → 0 ≤ v - v * rate := by
    intro v hv
    have : v * rate ≤ v * 1 := mul_le_mul_of_nonneg_left hrate1 hv
    linarith
  unfold btStep
  split
  · exact ⟨le_refl 0, add_nonneg hcash (hsell _ (mul_nonneg hshares hprice))⟩
  · cases mode with
    | dca =>
      dsimp only
      split
      · rename_i hcond
        constructor
        · exact add_nonneg hshares (div_nonneg (hsell _ (le_of_lt hcond.1)) hprice)
        · linarith [hcond.2]
      · exact ⟨hshares, hcash⟩
    | fixed amt =>
      dsimp only
      split
      · rename_i hcond
        have ha : 0 ≤ amt := hamt amt rfl
        constructor
        · exact add_nonneg hshares (div_nonneg (hsell _ ha) hprice)
        · linarith [hcond.2]
      · exact ⟨hshares, hcash⟩
    | full =>
      dsimp only
      split
      · exact ⟨div_nonneg (hsell _ hcash) hprice, le_refl 0⟩
      · exact ⟨hshares, hcash⟩

theorem btRunStates_nonneg (mode : Mode) (rate : ℚ) (data : List (ℚ × ℚ)) (st : Port)
    (hrate0 : 0 ≤ rate) (hrate1 : rate ≤ 1)
    (hamt : ∀ a : ℚ, mode = Mode.fixed a → 0 ≤ a)
    (hprices : ∀ pair ∈ data, 0 ≤ pair.1)
    (hshares : 0 ≤ st.shares) (hcash : 0 ≤ st.cash) :
    ∀ q ∈ btRunStates mode rate data st, 0 ≤ q.shares ∧ 0 ≤ q.cash := by
  induction data generalizing st with
  | nil => intro q hq; cases hq
  | cons x rest ih =>
    intro q hq
    rw [btRunStates] at hq
    have hx : 0 ≤ x.1 := hprices x (List.mem_cons_self _ _)
    have h1 := btStep_nonneg mode rate x.1 x.2 st hrate0 hrate1 hx hamt hshares hcash
    rcases List.mem_cons.mp hq with hq | hq
    · rw [hq]; exact h1
    · exact ih (btStep mode rate x.1 x.2 st)
        (fun pair hp => hprices pair (List.mem_cons_of_mem _ hp)) h1.1 h1.2 q hq

theorem btSettle_nonneg (mode : Mode) (rate lastPrice : ℚ) (st : Port)
    (hrate1 : rate ≤ 1) (hprice : 0 ≤ lastPrice)
    (hshares : 0 ≤ st.shares) (hcash : 0 ≤ st.cash) :
    0 ≤ (btSettle mode rate lastPrice st).shares ∧
      0 ≤ (btSettle mode rate lastPrice st).cash := by
  unfold btSettle
  split
  · refine ⟨le_refl 0, add_nonneg hcash ?_⟩
    have hv : 0 ≤ st.shares * lastPrice := mul_nonneg hshares hprice
    have : st.shares * lastPrice * rate ≤ st.shares * lastPrice * 1 :=
      mul_le_mul_of_nonneg_left hrate1 hv
    linarith
  · exact ⟨hshares, hcash⟩

end Backtester

namespace App

theorem mem_of_getLast?_eq {α : Type} {l : List α} {x : α} (h : l.getLast? = some x) :
    x ∈ l := by
  rcases List.mem_getLast?_eq_getLast (Option.mem_def.mpr h) with ⟨hne, hx⟩
  rw [hx]
  exact List.getLast_mem hne

theorem nav_getD_nonneg (rows : List Row) (i : ℕ) (h : ∀ row ∈ rows, 0 ≤ row.nav) :
    0 ≤ (rows.getD i ⟨0, false⟩).nav := by
  rcases Nat.lt_or_ge i rows.length with hi | hi
  · rw [List.getD_eq_getElem _ _ hi]
    exact h _ (List.getElem_mem hi)
  · rw [List.getD_eq_default _ _ hi]

theorem thrStep_nonneg (P : ThrParams) (rows : List Row) (i : ℕ) (st : ThrState)
    (hnav : 0 ≤ (rows.getD i ⟨0, false⟩).nav) (hamt : 0 ≤ P.buyAmount)
    (hcash : 0 ≤ st.cash) (hshares : 0 ≤ st.shares) :
    0 ≤ (thrStep P rows i st).st.cash ∧ 0 ≤ (thrStep P rows i st).st.shares := by
  unfold thrStep
  dsimp only
  split
  · split
    · exact ⟨add_nonneg hcash (mul_nonneg hshares hnav), le_refl 0⟩
    · dsimp only
      split
      · rename_i hle
        exact ⟨by linarith, add_nonneg hshares (div_nonneg hamt hnav)⟩
      · exact ⟨le_refl 0, add_nonneg hshares (div_nonneg hamt hnav)⟩
    · exact ⟨hcash, hshares⟩
  · exact ⟨hcash, hshares⟩

theorem thrRun_states_nonneg (P : ThrParams) (rows : List Row) (idxs : List ℕ)
    (st : ThrState) (hnavs : ∀ row ∈ rows, 0 ≤ row.nav) (hamt : 0 ≤ P.buyAmount)
    (hcash : 0 ≤ st.cash) (hshares : 0 ≤ st.shares) :
    ∀ q ∈ (thrRun P rows idxs st).states, 0 ≤ q.cash ∧ 0 ≤ q.shares := by
  induction idxs generalizing st with
  | nil => intro q hq; cases hq
  | cons i is ih =>
    intro q hq
    rw [thrRun] at hq
    dsimp only at hq
    have h1 := thrStep_nonneg P rows i st (nav_getD_nonneg rows i hnavs) hamt hcash hshares
    rcases List.mem_cons.mp hq with hq | hq
    · rw [hq]; exact h1
    · exact ih _ h1.1 h1.2 q hq

end App

/-- C2: non-negative balances invariant.  For every run of
backtester.run_backtest (DCA, fixed-amount or full-allocation mode) with
non-negative initial capital, prices and fixed amount, and commission
rate in [0, 1], every state of the per-date fold and the settled final
state have cash >= 0 and shares >= 0; likewise every per-date state of
the app.run_backtest threshold fold with non-negative NAVs and buy
amount. -/
theorem nonnegative_balances (mode : Backtester.Mode) (rate initialCapital : ℚ)
    (data : List (ℚ × ℚ)) (P : App.ThrParams) (rows : List App.Row)
    (hrate0 : 0 ≤ rate) (hrate1 : rate ≤ 1) (hinit : 0 ≤ initialCapital)
    (hamt : ∀ a : ℚ, mode = Backtester.Mode.fixed a → 0 ≤ a)
    (hprices : ∀ pair ∈ data, 0 ≤ pair.1)
    (hbuyAmt : 0 ≤ P.buyAmount) (hnavs : ∀ row ∈ rows, 0 ≤ row.nav) :
    (∀ st ∈ (Backtester.run_backtest mode rate initialCapital data).1,
        0 ≤ st.shares ∧ 0 ≤ st.cash) ∧
    (0 ≤ (Backtester.run_backtest mode rate initialCapital data).2.shares ∧
      0 ≤ (Backtester.run_backtest mode rate initialCapital data).2.cash) ∧
    (∀ st ∈ (App.run_backtest P rows).states, 0 ≤ st.cash ∧ 0 ≤ st.shares) := by
  have htrace := Backtester.btRunStates_nonneg mode rate data ⟨0, initialCapital⟩
    hrate0 hrate1 hamt hprices (le_refl 0) hinit
  refine ⟨htrace, ?_, ?_⟩
  · have hlastPrice : 0 ≤ (data.getLast?).elim 0 Prod.fst := by
      cases hl : data.getLast? with
      | none => exact le_refl 0
      | some pair => exact hprices pair (App.mem_of_getLast?_eq hl)
    have hlastState :
        0 ≤ ((Backtester.btRunStates mode rate data ⟨0, initialCapital⟩).getLast?.elim
            (⟨0, initialCapital⟩ : Backtester.Port) id).shares ∧
        0 ≤ ((Backtester.btRunStates mode rate data ⟨0, initialCapital⟩).getLast?.elim
            (⟨0, initialCapital⟩ : Backtester.Port) id).cash := by
      cases hl : (Backtester.btRunStates mode rate data ⟨0, initialCapital⟩).getLast? with
      | none => exact ⟨le_refl 0, hinit⟩
      | some q => exact htrace q (App.mem_of_getLast?_eq hl)
    exact Backtester.btSettle_nonneg mode rate _ _ hrate1 hlastPrice
      hlastState.1 hlastState.2
  · exact App.thrRun_states_nonneg P rows (List.range rows.length) ⟨0, 0, 0⟩
      hnavs hbuyAmt (le_refl 0) (le_refl 0)

/-- Witness for C2 at a concrete DCA run and a concrete threshold run. -/
theorem nonnegative_balances_witness :
    (∀ st ∈ (Backtester.run_backtest Backtester.Mode.dca (1/1000) 100
        [(1, 50), (2, -1)]).1, 0 ≤ st.shares ∧ 0 ≤ st.cash) ∧
    (0 ≤ (Backtester.run_backtest Backtester.Mode.dca (1/1000) 100
        [(1, 50), (2, -1)]).2.shares ∧
      0 ≤ (Backtester.run_backtest Backtester.Mode.dca (1/1000) 100
        [(1, 50), (2, -1)]).2.cash) ∧
    (∀ st ∈ (App.run_backtest ⟨100, -5, 5, 1⟩
        [⟨1, true⟩, ⟨9/10, true⟩]).states, 0 ≤ st.cash ∧ 0 ≤ st.shares) :=
  nonnegative_balances Backtester.Mode.dca (1/1000) 100 [(1, 50), (2, -1)]
    ⟨100, -5, 5, 1⟩ [⟨1, true⟩, ⟨9/10, true⟩]
    (by norm_num) (by norm_num) (by norm_num)
    (fun a ha => by cases ha)
    (by intro pair hp; fin_cases hp <;> norm_num)
    (by norm_num)
    (by intro row hr; fin_cases hr <;> norm_num)

namespace Backtester

theorem btStep_full_excl (rate price signal : ℚ) (st : Port)
    (hst : st.shares = 0 ∨ st.cash = 0) :
    (btStep Mode.full rate price signal st).shares = 0 ∨
      (btStep Mode.full rate price signal st).cash = 0 := by
  unfold btStep
  split
  · exact Or.inl rfl
  · dsimp only
    split
    · exact Or.inr rfl
    · exact hst

theorem btRunStates_full_excl (rate : ℚ) (data : List (ℚ × ℚ)) (st : Port)
    (hst : st.shares = 0 ∨ st.cash = 0) :
    ∀ q ∈ btRunStates Mode.full rate data st, q.shares = 0 ∨ q.cash = 0 := by
  induction data generalizing st with
  | nil => intro q hq; cases hq
  | cons x rest ih =>
    intro q hq
    rw [btRunStates] at hq
    have h1 := btStep_full_excl rate x.1 x.2 st hst
    rcases List.mem_cons.mp hq with hq | hq
    · rw [hq]; exact h1
    · exact ih _ h1 q hq

end Backtester

/-- C10: full-allocation exclusivity.  Starting from cash =
initial_capital and shares = 0, every state of the full-allocation fold
of backtester.run_backtest satisfies shares = 0 or cash = 0; and at any
state satisfying this invariant where the full-allocation buy branch
fires (signal 1 and positive cash), the share balance being overwritten
is 0, so the overwrite discards nothing. -/
theorem full_allocation_exclusive (rate initialCapital : ℚ) (data : List (ℚ × ℚ)) :
    (∀ st ∈ (⟨0, initialCapital⟩ : Backtester.Port) ::
        (Backtester.run_backtest Backtester.Mode.full rate initialCapital data).1,
      st.shares = 0 ∨ st.cash = 0) ∧
    (∀ (price signal : ℚ) (st : Backtester.Port),
      (st.shares = 0 ∨ st.cash = 0) → signal = 1 → 0 < st.cash →
        st.shares = 0 ∧
        Backtester.btStep Backtester.Mode.full rate price signal st
          = ⟨(st.cash - st.cash * rate) / price, 0⟩) := by
  constructor
  · intro st hst
    rcases List.mem_cons.mp hst with hst | hst
    · rw [hst]; exact Or.inl rfl
    · exact Backtester.btRunStates_full_excl rate data ⟨0, initialCapital⟩
        (Or.inl rfl) st hst
  · intro price signal st hinv hsig hcash
    have hsh : st.shares = 0 := by
      rcases hinv with h | h
      · exact h
      · exact absurd h (ne_of_gt hcash)
    refine ⟨hsh, ?_⟩
    unfold Backtester.btStep
    have hnot : ¬(Backtester.Mode.full ≠ Backtester.Mode.dca ∧ signal = -1 ∧ 0 < st.shares) := by
      rintro ⟨-, hneg, -⟩
      rw [hsig] at hneg
      norm_num at hneg
    rw [if_neg hnot]
    dsimp only
    rw [if_pos ⟨hsig, hcash⟩]

/-- Witness for C10 at a concrete full-allocation run. -/
theorem full_allocation_exclusive_witness :
    (∀ st ∈ (⟨0, 100⟩ : Backtester.Port) ::
        (Backtester.run_backtest Backtester.Mode.full 0 100 [(1, 1), (2, -1)]).1,
      st.shares = 0 ∨ st.cash = 0) ∧
    (∀ (price signal : ℚ) (st : Backtester.Port),
      (st.shares = 0 ∨ st.cash = 0) → signal = 1 → 0 < st.cash →
        st.shares = 0 ∧
        Backtester.btStep Backtester.Mode.full 0 price signal st
          = ⟨(st.cash - st.cash * 0) / price, 0⟩) :=
  full_allocation_exclusive 0 100 [(1, 1), (2, -1)]

namespace App

/-- The externally injected portion of one recorded buy: zero when the
buy amount was covered by available cash, otherwise the shortfall
(amount minus cash on hand), exactly the new_capital term of
app.run_backtest. -/
def buyShortfall (t : Txn) : ℚ :=
  if t.value ≤ t.cashBefore then 0 else t.value - t.cashBefore

theorem thrRun_invested (P : ThrParams) (rows : List Row) (idxs : List ℕ)
    (st : ThrState) :
    (thrRun P rows idxs st).st.invested
      = st.invested +
        (((thrRun P rows idxs st).txns.filter fun t =>
          decide (t.kind = Decision.buy)).map buyShortfall).sum := by
  induction idxs generalizing st with
  | nil => simp [thrRun]
  | cons i is ih =>
    rw [thrRun]
    dsimp only
    unfold thrStep
    dsimp only
    split
    · split
      · -- sell: txn recorded but filtered out, invested unchanged
        rw [ih, List.filter_cons_of_neg (by simp)]
      · -- buy: txn recorded, invested moves by the shortfall
        dsimp only
        split
        · rename_i hle
          rw [ih, List.filter_cons_of_pos (by simp)]
          dsimp only
          simp only [List.map_cons, List.sum_cons, buyShortfall]
          rw [if_pos hle]
          ring
        · rename_i hle
          rw [ih, List.filter_cons_of_pos (by simp)]
          dsimp only
          simp only [List.map_cons, List.sum_cons, buyShortfall]
          rw [if_neg hle]
          ring
      · exact ih st
    · exact ih st

theorem thrStep_buy_txn_spec (P : ThrParams) (rows : List Row) (i : ℕ)
    (st : ThrState) (t : Txn) (ht : (thrStep P rows i st).txn = some t)
    (hbuy : t.kind = Decision.buy) :
    t.value = P.buyAmount ∧ t.shares = t.value / t.price ∧
      (t.value ≤ t.cashBefore → t.cashAfter = t.cashBefore - t.value) ∧
      (¬ t.value ≤ t.cashBefore → t.cashAfter = 0) := by
  unfold thrStep at ht
  dsimp only at ht
  split at ht
  · split at ht
    · cases Option.some.inj ht
      cases hbuy
    · cases Option.some.inj ht
      refine ⟨rfl, rfl, fun hle => ?_, fun hle => ?_⟩
      · dsimp only at hle ⊢
        rw [apply_ite ThrState.cash, if_pos hle]
      · dsimp only at hle ⊢
        rw [apply_ite ThrState.cash, if_neg hle]
    · cases ht
  · cases ht

theorem thrRun_buy_txn_spec (P : ThrParams) (rows : List Row) (idxs : List ℕ)
    (st : ThrState) :
    ∀ t ∈ (thrRun P rows idxs st).txns, t.kind = Decision.buy →
      t.value = P.buyAmount ∧ t.shares = t.value / t.price ∧
      (t.value ≤ t.cashBefore → t.cashAfter = t.cashBefore - t.value) ∧
      (¬ t.value ≤ t.cashBefore → t.cashAfter = 0) := by
  induction idxs generalizing st with
  | nil => intro t ht; cases ht
  | cons i is ih =>
    intro t ht hbuy
    rw [thrRun] at ht
    dsimp only at ht
    cases hstep : (thrStep P rows i st).txn with
    | none =>
      rw [hstep] at ht
      exact ih _ t ht hbuy
    | some t0 =>
      rw [hstep] at ht
      dsimp only at ht
      rcases List.mem_cons.mp ht with h | h
      · subst h
        exact thrStep_buy_txn_spec P rows i st t hstep hbuy
      · exact ih _ t h hbuy

end App

/-- C5: external-capital accounting of the app.run_backtest threshold
strategy.  The final total_thr_invested equals the sum, over recorded
buy transactions, of the shortfall (buy amount minus cash on hand, zero
when cash covered the buy); and every recorded buy carries the full
configured amount as its value, converts that full amount to shares at
the transaction price, reduces cash by the amount when covered and
consumes cash to exactly zero otherwise. -/
theorem external_capital_accounting (P : App.ThrParams) (rows : List App.Row) :
    (App.run_backtest P rows).st.invested
      = (((App.run_backtest P rows).txns.filter fun t =>
          decide (t.kind = Decision.buy)).map App.buyShortfall).sum ∧
    ∀ t ∈ (App.run_backtest P rows).txns, t.kind = Decision.buy →
      t.value = P.buyAmount ∧ t.shares = t.value / t.price ∧
      (t.value ≤ t.cashBefore → t.cashAfter = t.cashBefore - t.value) ∧
      (¬ t.value ≤ t.cashBefore → t.cashAfter = 0) := by
  constructor
  · have h := App.thrRun_invested P rows (List.range rows.length) ⟨0, 0, 0⟩
    unfold App.run_backtest
    rw [h]
    norm_num
  · exact App.thrRun_buy_txn_spec P rows (List.range rows.length) ⟨0, 0, 0⟩

/-- Witness for C5: a run with one uncovered buy (shortfall 100) followed
by a covered state check, instantiating the theorem at concrete data. -/
theorem external_capital_accounting_witness :
    (App.run_backtest ⟨100, -5, 5, 1⟩ [⟨1, true⟩, ⟨9/10, true⟩]).st.invested
      = (((App.run_backtest ⟨100, -5, 5, 1⟩ [⟨1, true⟩, ⟨9/10, true⟩]).txns.filter fun t =>
          decide (t.kind = Decision.buy)).map App.buyShortfall).sum ∧
    ∀ t ∈ (App.run_backtest ⟨100, -5, 5, 1⟩ [⟨1, true⟩, ⟨9/10, true⟩]).txns,
      t.kind = Decision.buy →
      t.value = (100 : ℚ) ∧ t.shares = t.value / t.price ∧
      (t.value ≤ t.cashBefore → t.cashAfter = t.cashBefore - t.value) ∧
      (¬ t.value ≤ t.cashBefore → t.cashAfter = 0) :=
  external_capital_accounting ⟨100, -5, 5, 1⟩ [⟨1, true⟩, ⟨9/10, true⟩]

namespace Strategy

/-- close.rolling(window=w, min_periods=1).mean() at index i, as used by
ma_crossover_strategy: the mean of the up to w entries ending at i. -/
def rollingMean (w : ℕ) (close : List ℚ) (i : ℕ) : ℚ :=
  let lo := i + 1 - w
  let k := i + 1 - lo
  (((List.range k).map fun j => close.getD (lo + j) 0).sum) / (k : ℚ)

/-- The position column of ma_crossover_strategy: zero on the first
long_window rows, then the indicator of short MA > long MA. -/
def maPosition (shortW longW : ℕ) (close : List ℚ) (i : ℕ) : ℚ :=
  if i < longW then 0
  else if rollingMean longW close i < rollingMean shortW close i then 1 else 0

/-- The signal column of ma_crossover_strategy: position.diff() with the
leading NaN filled with 0. -/
def ma_crossover_signal (shortW longW : ℕ) (close : List ℚ) : ℕ → ℚ
  | 0 => 0
  | j + 1 => maPosition shortW longW close (j + 1) - maPosition shortW longW close j

/-- The price_change_pct column of threshold_strategy (strategy.py):
close / close.shift(lookback) - 1; `none` models NaN for rows without a
reference. -/
def price_change_pct (lookback : ℕ) (close : List ℚ) (i : ℕ) : Option ℚ :=
  if lookback ≤ i then some (close.getD i 0 / close.getD (i - lookback) 0 - 1) else none

/-- The signal column of threshold_strategy (strategy.py): buy rows get
1.0 first, then sell rows are overwritten with -1.0, so on a
simultaneous trigger the sell assignment wins; thresholds arrive as UI
percentages and are divided by 100. -/
def threshold_signal (lookback : ℕ) (buyT sellT : ℚ) (close : List ℚ) (i : ℕ) : ℚ :=
  match price_change_pct lookback close i with
  | none => 0
  | some pct =>
    if sellT / 100 ≤ pct then -1
    else if pct ≤ buyT / 100 then 1
    else 0

/-- The signal column of dca_strategy (strategy.py): the running
days_since_last_investment counter starts at interval_days, so the first
row invests, and thereafter every interval_days-th row invests. -/
def dcaSignalAux (intervalDays : ℕ) (amount : ℚ) : ℕ → ℕ → List ℚ
  | 0, _ => []
  | n + 1, daysSince =>
    if intervalDays ≤ daysSince then amount :: dcaSignalAux intervalDays amount n 1
    else 0 :: dcaSignalAux intervalDays amount n (daysSince + 1)

/-- dca_strategy: the signal list for a series of the given length. -/
def dca_strategy (intervalDays : ℕ) (amount : ℚ) (len : ℕ) : List ℚ :=
  dcaSignalAux intervalDays amount len intervalDays

/-- data.ewm(span=s, adjust=False).mean() after the first row: each
output blends the previous output with the current input using
alpha = 2 / (span + 1). -/
def ewmAux (alpha prev : ℚ) : List ℚ → List ℚ
  | [] => []
  | x :: xs =>
    let y := (1 - alpha) * prev + alpha * x
    y :: ewmAux alpha y xs

/-- data.ewm(span=s, adjust=False).mean(): the first output equals the
first input. -/
def ewm (span : ℕ) : List ℚ → List ℚ
  | [] => []
  | x :: xs => x :: ewmAux (2 / ((span : ℚ) + 1)) x xs

/-- The MACD line of _calculate_macd: fast EMA minus slow EMA. -/
def macdLine (fastP slowP : ℕ) (close : List ℚ) : List ℚ :=
  (ewm fastP close).zipWith (fun a b => a - b) (ewm slowP close)

/-- The signal line of _calculate_macd: EMA of the MACD line. -/
def macdSignalLine (fastP slowP signalP : ℕ) (close : List ℚ) : List ℚ :=
  ewm signalP (macdLine fastP slowP close)

/-- The buy_signals column of macd_strategy: MACD above signal now,
at or below on the previous row; rows without a previous row (the
shift-induced NaN) never trigger. -/
def macdBuy (fastP slowP signalP : ℕ) (close : List ℚ) : ℕ → Bool
  | 0 => false
  | j + 1 =>
    decide ((macdSignalLine fastP slowP signalP close).getD (j + 1) 0
        < (macdLine fastP slowP close).getD (j + 1) 0) &&
    decide ((macdLine fastP slowP close).getD j 0
        ≤ (macdSignalLine fastP slowP signalP close).getD j 0)

/-- The sell_signals column of macd_strategy, mirror image of macdBuy. -/
def macdSell (fastP slowP signalP : ℕ) (close : List ℚ) : ℕ → Bool
  | 0 => false
  | j + 1 =>
    decide ((macdLine fastP slowP close).getD (j + 1) 0
        < (macdSignalLine fastP slowP signalP close).getD (j + 1) 0) &&
    decide ((macdSignalLine fastP slowP signalP close).getD j 0
        ≤ (macdLine fastP slowP close).getD j 0)

/-- The sequential position loop shared by the indicator strategies: a
buy row forces position 1, a sell row forces 0, otherwise the previous
realized position is carried. -/
def positionLoop (buyF sellF : ℕ → Bool) : ℕ → ℚ
  | 0 => if buyF 0 then 1 else 0
  | i + 1 =>
    if buyF (i + 1) then 1
    else if sellF (i + 1) then 0
    else positionLoop buyF sellF i

/-- The signal column of macd_strategy: position.diff() with the leading
NaN filled with 0. -/
def macd_signal (fastP slowP signalP : ℕ) (close : List ℚ) : ℕ → ℚ
  | 0 => 0
  | j + 1 =>
    positionLoop (macdBuy fastP slowP signalP close) (macdSell fastP slowP signalP close) (j + 1)
      - positionLoop (macdBuy fastP slowP signalP close) (macdSell fastP slowP signalP close) j

/-- delta.where(delta > 0, 0) in _calculate_rsi: the positive part of
close.diff().  The leading difference is NaN, which compares false
against 0 and is therefore replaced by 0 by the where. -/
def gainAt (close : List ℚ) : ℕ → ℚ
  | 0 => 0
  | j + 1 =>
    if 0 < close.getD (j + 1) 0 - close.getD j 0
    then close.getD (j + 1) 0 - close.getD j 0 else 0

/-- Minus delta.where(delta < 0, 0) in _calculate_rsi: the magnitude of
the negative part of close.diff(); the leading NaN difference again
becomes 0. -/
def lossAt (close : List ℚ) : ℕ → ℚ
  | 0 => 0
  | j + 1 =>
    if close.getD (j + 1) 0 - close.getD j 0 < 0
    then -(close.getD (j + 1) 0 - close.getD j 0) else 0

/-- series.rolling(window=w).mean() of a pointwise series, with
min_periods defaulting to the window: the mean of the w entries ending
at i, `none` (NaN) while fewer than w entries exist. -/
def rollingMeanW (w : ℕ) (f : ℕ → ℚ) (i : ℕ) : Option ℚ :=
  if i + 1 < w then none
  else some ((((List.range w).map fun j => f (i + 1 - w + j)).sum) / (w : ℚ))

/-- The rsi series of _calculate_rsi: 100 - (100 / (1 + gain/loss)),
with the float semantics of the division spelled out: while a rolling
window is incomplete the result is NaN; a zero loss mean with a positive
gain mean makes rs = +inf and rsi = 100; a zero loss mean with a zero
gain mean is 0/0 = NaN. -/
def rsiAt (period : ℕ) (close : List ℚ) (i : ℕ) : Option ℚ :=
  match rollingMeanW period (gainAt close) i, rollingMeanW period (lossAt close) i with
  | some g, some l =>
    if l = 0 then (if 0 < g then some 100 else none)
    else some (100 - 100 / (1 + g / l))
  | _, _ => none

/-- The buy_signals column of rsi_strategy: RSI above the oversold
threshold now and at or below it on the previous row; comparisons
against NaN (incomplete windows, the shift-induced gap at row 0, a
0/0 rs) never trigger. -/
def rsiBuy (period : ℕ) (oversold : ℚ) (close : List ℚ) : ℕ → Bool
  | 0 => false
  | j + 1 =>
    match rsiAt period close (j + 1), rsiAt period close j with
    | some a, some b => decide (oversold < a) && decide (b ≤ oversold)
    | _, _ => false

/-- The sell_signals column of rsi_strategy, mirror image of rsiBuy at
the overbought threshold. -/
def rsiSell (period : ℕ) (overbought : ℚ) (close : List ℚ) : ℕ → Bool
  | 0 => false
  | j + 1 =>
    match rsiAt period close (j + 1), rsiAt period close j with
    | some a, some b => decide (a < overbought) && decide (overbought ≤ b)
    | _, _ => false

/-- The signal column of rsi_strategy: position.diff() over the shared
position loop, with the leading NaN filled with 0. -/
def rsi_signal (period : ℕ) (oversold overbought : ℚ) (close : List ℚ) : ℕ → ℚ
  | 0 => 0
  | j + 1 =>
    positionLoop (rsiBuy period oversold close) (rsiSell period overbought close) (j + 1)
      - positionLoop (rsiBuy period oversold close) (rsiSell period overbought close) j

/-- The w close entries ending at index i, as read by the rolling
windows of bollinger_bands_strategy. -/
def windowVals (w : ℕ) (close : List ℚ) (i : ℕ) : List ℚ :=
  (List.range w).map fun j => close.getD (i + 1 - w + j) 0

/-- close.rolling(window=w).std() in bollinger_bands_strategy
(min_periods defaults to the window; ddof = 1), parameterized by the
square-root kernel sqrtF applied to the rational sample variance: the
floating-point square root is one such function ℚ → ℚ, and every
theorem below holds for all of them, so nothing depends on its values.
A window of a single observation has sample variance 0/0 = NaN, hence
`none` when w = 1 (pandas rejects w = 0 outright). -/
def rollingStd (sqrtF : ℚ → ℚ) (w : ℕ) (close : List ℚ) (i : ℕ) : Option ℚ :=
  if i + 1 < w ∨ w ≤ 1 then none
  else
    let vals := windowVals w close i
    let m := vals.sum / (w : ℚ)
    some (sqrtF (((vals.map fun x => (x - m) ^ 2).sum) / ((w : ℚ) - 1)))

/-- The bbl column of bollinger_bands_strategy: middle band minus
std * std_dev; NaN while either rolling window is incomplete. -/
def bbl (sqrtF : ℚ → ℚ) (w : ℕ) (k : ℚ) (close : List ℚ) (i : ℕ) : Option ℚ :=
  match rollingMeanW w (fun j => close.getD j 0) i, rollingStd sqrtF w close i with
  | some m, some s => some (m - s * k)
  | _, _ => none

/-- The bbu column of bollinger_bands_strategy: middle band plus
std * std_dev. -/
def bbu (sqrtF : ℚ → ℚ) (w : ℕ) (k : ℚ) (close : List ℚ) (i : ℕ) : Option ℚ :=
  match rollingMeanW w (fun j => close.getD j 0) i, rollingStd sqrtF w close i with
  | some m, some s => some (m + s * k)
  | _, _ => none

/-- The buy_signals column of bollinger_bands_strategy: close above the
lower band now and at or below it on the previous row; rows where a
band or the shifted close is NaN never trigger. -/
def bollBuy (sqrtF : ℚ → ℚ) (w : ℕ) (k : ℚ) (close : List ℚ) : ℕ → Bool
  | 0 => false
  | j + 1 =>
    match bbl sqrtF w k close (j + 1), bbl sqrtF w k close j with
    | some b1, some b0 =>
      decide (b1 < close.getD (j + 1) 0) && decide (close.getD j 0 ≤ b0)
    | _, _ => false

/-- The sell_signals column of bollinger_bands_strategy, mirror image of
bollBuy at the upper band. -/
def bollSell (sqrtF : ℚ → ℚ) (w : ℕ) (k : ℚ) (close : List ℚ) : ℕ → Bool
  | 0 => false
  | j + 1 =>
    match bbu sqrtF w k close (j + 1), bbu sqrtF w k close j with
    | some u1, some u0 =>
      decide (close.getD (j + 1) 0 < u1) && decide (u0 ≤ close.getD j 0)
    | _, _ => false

/-- The signal column of bollinger_bands_strategy: position.diff() over
the shared position loop, with the leading NaN filled with 0. -/
def bollinger_signal (sqrtF : ℚ → ℚ) (w : ℕ) (k : ℚ) (close : List ℚ) : ℕ → ℚ
  | 0 => 0
  | j + 1 =>
    positionLoop (bollBuy sqrtF w k close) (bollSell sqrtF w k close) (j + 1)
      - positionLoop (bollBuy sqrtF w k close) (bollSell sqrtF w k close) j

theorem getD_eq_of_take_eq (ps qs : List ℚ) (d j : ℕ) (hj : j ≤ d)
    (h : ps.take (d + 1) = qs.take (d + 1)) : ps.getD j 0 = qs.getD j 0 := by
  have h1 : ps.get? j = qs.get? j := by
    have h2 := congrArg (fun l => l.get? j) h
    dsimp only at h2
    rwa [List.get?_take (Nat.lt_succ_of_le hj), List.get?_take (Nat.lt_succ_of_le hj)] at h2
  rw [List.getD_eq_getD_get?, List.getD_eq_getD_get?, h1]

theorem rollingMean_congr (w : ℕ) (ps qs : List ℚ) (d i : ℕ) (hi : i ≤ d)
    (h : ps.take (d + 1) = qs.take (d + 1)) :
    rollingMean w ps i = rollingMean w qs i := by
  unfold rollingMean
  dsimp only
  congr 1
  refine congrArg List.sum (List.map_congr_left ?_)
  intro j hj
  have hj2 : i + 1 - w + j ≤ d := by
    have := List.mem_range.mp hj
    omega
  exact getD_eq_of_take_eq ps qs d _ hj2 h

theorem maPosition_congr (shortW longW : ℕ) (ps qs : List ℚ) (d i : ℕ) (hi : i ≤ d)
    (h : ps.take (d + 1) = qs.take (d + 1)) :
    maPosition shortW longW ps i = maPosition shortW longW qs i := by
  unfold maPosition
  rw [rollingMean_congr longW ps qs d i hi h, rollingMean_congr shortW ps qs d i hi h]

theorem ewmAux_take_congr (alpha : ℚ) (n : ℕ) :
    ∀ (prev : ℚ) (ps qs : List ℚ), ps.take n = qs.take n →
      (ewmAux alpha prev ps).take n = (ewmAux alpha prev qs).take n := by
  induction n with
  | zero => intro prev ps qs _; simp
  | succ n ih =>
    intro prev ps qs h
    cases ps with
    | nil =>
      cases qs with
      | nil => rfl
      | cons y ys => simp at h
    | cons x xs =>
      cases qs with
      | nil => simp at h
      | cons y ys =>
        rw [List.take_succ_cons, List.take_succ_cons] at h
        have hxy : x = y := (List.cons.inj h).1
        have htail : xs.take n = ys.take n := (List.cons.inj h).2
        subst hxy
        rw [ewmAux, ewmAux]
        rw [List.take_succ_cons, List.take_succ_cons, ih _ xs ys htail]

theorem ewm_take_congr (span : ℕ) (n : ℕ) (ps qs : List ℚ)
    (h : ps.take n = qs.take n) : (ewm span ps).take n = (ewm span qs).take n := by
  cases n with
  | zero => simp
  | succ n =>
    cases ps with
    | nil =>
      cases qs with
      | nil => rfl
      | cons y ys => simp at h
    | cons x xs =>
      cases qs with
      | nil => simp at h
      | cons y ys =>
        rw [List.take_succ_cons, List.take_succ_cons] at h
        have hxy : x = y := (List.cons.inj h).1
        have htail : xs.take n = ys.take n := (List.cons.inj h).2
        subst hxy
        rw [ewm, ewm, List.take_succ_cons, List.take_succ_cons,
          ewmAux_take_congr _ n _ xs ys htail]

theorem macdLine_take_congr (fastP slowP : ℕ) (n : ℕ) (ps qs : List ℚ)
    (h : ps.take n = qs.take n) :
    (macdLine fastP slowP ps).take n = (macdLine fastP slowP qs).take n := by
  unfold macdLine
  rw [List.take_zipWith, List.take_zipWith,
    ewm_take_congr fastP n ps qs h, ewm_take_congr slowP n ps qs h]

theorem macdSignalLine_take_congr (fastP slowP signalP : ℕ) (n : ℕ) (ps qs : List ℚ)
    (h : ps.take n = qs.take n) :
    (macdSignalLine fastP slowP signalP ps).take n
      = (macdSignalLine fastP slowP signalP qs).take n := by
  unfold macdSignalLine
  exact ewm_take_congr signalP n _ _ (macdLine_take_congr fastP slowP n ps qs h)

theorem macdBuy_congr (fastP slowP signalP : ℕ) (ps qs : List ℚ) (d i : ℕ) (hi : i ≤ d)
    (h : ps.take (d + 1) = qs.take (d + 1)) :
    macdBuy fastP slowP signalP ps i = macdBuy fastP slowP signalP qs i := by
  have hm := macdLine_take_congr fastP slowP (d + 1) ps qs h
  have hs := macdSignalLine_take_congr fastP slowP signalP (d + 1) ps qs h
  cases i with
  | zero => rfl
  | succ j =>
    simp only [macdBuy]
    rw [getD_eq_of_take_eq _ _ d (j + 1) hi hm, getD_eq_of_take_eq _ _ d j (by omega) hm,
      getD_eq_of_take_eq _ _ d (j + 1) hi hs, getD_eq_of_take_eq _ _ d j (by omega) hs]

theorem macdSell_congr (fastP slowP signalP : ℕ) (ps qs : List ℚ) (d i : ℕ) (hi : i ≤ d)
    (h : ps.take (d + 1) = qs.take (d + 1)) :
    macdSell fastP slowP signalP ps i = macdSell fastP slowP signalP qs i := by
  have hm := macdLine_take_congr fastP slowP (d + 1) ps qs h
  have hs := macdSignalLine_take_congr fastP slowP signalP (d + 1) ps qs h
  cases i with
  | zero => rfl
  | succ j =>
    simp only [macdSell]
    rw [getD_eq_of_take_eq _ _ d (j + 1) hi hm, getD_eq_of_take_eq _ _ d j (by omega) hm,
      getD_eq_of_take_eq _ _ d (j + 1) hi hs, getD_eq_of_take_eq _ _ d j (by omega) hs]

theorem positionLoop_congr (buyF sellF buyG sellG : ℕ → Bool) (i : ℕ)
    (hb : ∀ j ≤ i, buyF j = buyG j) (hs : ∀ j ≤ i, sellF j = sellG j) :
    positionLoop buyF sellF i = positionLoop buyG sellG i := by
  induction i with
  | zero => simp only [positionLoop]; rw [hb 0 (le_refl 0)]
  | succ j ih =>
    simp only [positionLoop]
    rw [hb (j + 1) (le_refl _), hs (j + 1) (le_refl _),
      ih (fun k hk => hb k (Nat.le_succ_of_le hk)) (fun k hk => hs k (Nat.le_succ_of_le hk))]

theorem gainAt_congr (ps qs : List ℚ) (d i : ℕ) (hi : i ≤ d)
    (h : ps.take (d + 1) = qs.take (d + 1)) : gainAt ps i = gainAt qs i := by
  cases i with
  | zero => rfl
  | succ j =>
    simp only [gainAt]
    rw [getD_eq_of_take_eq ps qs d (j + 1) hi h, getD_eq_of_take_eq ps qs d j (by omega) h]

theorem lossAt_congr (ps qs : List ℚ) (d i : ℕ) (hi : i ≤ d)
    (h : ps.take (d + 1) = qs.take (d + 1)) : lossAt ps i = lossAt qs i := by
  cases i with
  | zero => rfl
  | succ j =>
    simp only [lossAt]
    rw [getD_eq_of_take_eq ps qs d (j + 1) hi h, getD_eq_of_take_eq ps qs d j (by omega) h]

theorem rollingMeanW_congr (w : ℕ) (f g : ℕ → ℚ) (i : ℕ)
    (hfg : ∀ j ≤ i, f j = g j) : rollingMeanW w f i = rollingMeanW w g i := by
  unfold rollingMeanW
  by_cases hw : i + 1 < w
  · rw [if_pos hw, if_pos hw]
  · rw [if_neg hw, if_neg hw]
    have hmap : ((List.range w).map fun j => f (i + 1 - w + j))
        = ((List.range w).map fun j => g (i + 1 - w + j)) := by
      refine List.map_congr_left ?_
      intro j hj
      have := List.mem_range.mp hj
      exact hfg _ (by omega)
    rw [hmap]

theorem rsiAt_congr (period : ℕ) (ps qs : List ℚ) (d i : ℕ) (hi : i ≤ d)
    (h : ps.take (d + 1) = qs.take (d + 1)) :
    rsiAt period ps i = rsiAt period qs i := by
  unfold rsiAt
  rw [rollingMeanW_congr period (gainAt ps) (gainAt qs) i
      (fun j hj => gainAt_congr ps qs d j (le_trans hj hi) h),
    rollingMeanW_congr period (lossAt ps) (lossAt qs) i
      (fun j hj => lossAt_congr ps qs d j (le_trans hj hi) h)]

theorem rsiBuy_congr (period : ℕ) (os : ℚ) (ps qs : List ℚ) (d i : ℕ) (hi : i ≤ d)
    (h : ps.take (d + 1) = qs.take (d + 1)) :
    rsiBuy period os ps i = rsiBuy period os qs i := by
  cases i with
  | zero => rfl
  | succ j =>
    simp only [rsiBuy]
    rw [rsiAt_congr period ps qs d (j + 1) hi h, rsiAt_congr period ps qs d j (by omega) h]

theorem rsiSell_congr (period : ℕ) (ob : ℚ) (ps qs : List ℚ) (d i : ℕ) (hi : i ≤ d)
    (h : ps.take (d + 1) = qs.take (d + 1)) :
    rsiSell period ob ps i = rsiSell period ob qs i := by
  cases i with
  | zero => rfl
  | succ j =>
    simp only [rsiSell]
    rw [rsiAt_congr period ps qs d (j + 1) hi h, rsiAt_congr period ps qs d j (by omega) h]

theorem windowVals_congr (w : ℕ) (ps qs : List ℚ) (d i : ℕ) (hi : i ≤ d)
    (hw : w ≤ i + 1) (h : ps.take (d + 1) = qs.take (d + 1)) :
    windowVals w ps i = windowVals w qs i := by
  unfold windowVals
  refine List.map_congr_left ?_
  intro j hj
  have := List.mem_range.mp hj
  exact getD_eq_of_take_eq ps qs d _ (by omega) h

theorem rollingStd_congr (sqrtF : ℚ → ℚ) (w : ℕ) (ps qs : List ℚ) (d i : ℕ) (hi : i ≤ d)
    (h : ps.take (d + 1) = qs.take (d + 1)) :
    rollingStd sqrtF w ps i = rollingStd sqrtF w qs i := by
  unfold rollingStd
  by_cases hw : i + 1 < w ∨ w ≤ 1
  · rw [if_pos hw, if_pos hw]
  · rw [if_neg hw, windowVals_congr w ps qs d i hi (by omega) h, if_neg hw]

theorem bbl_congr (sqrtF : ℚ → ℚ) (w : ℕ) (k : ℚ) (ps qs : List ℚ) (d i : ℕ) (hi : i ≤ d)
    (h : ps.take (d + 1) = qs.take (d + 1)) :
    bbl sqrtF w k ps i = bbl sqrtF w k qs i := by
  unfold bbl
  rw [rollingMeanW_congr w (fun j => ps.getD j 0) (fun j => qs.getD j 0) i
      (fun j hj => getD_eq_of_take_eq ps qs d j (le_trans hj hi) h),
    rollingStd_congr sqrtF w ps qs d i hi h]

theorem bbu_congr (sqrtF : ℚ → ℚ) (w : ℕ) (k : ℚ) (ps qs : List ℚ) (d i : ℕ) (hi : i ≤ d)
    (h : ps.take (d + 1) = qs.take (d + 1)) :
    bbu sqrtF w k ps i = bbu sqrtF w k qs i := by
  unfold bbu
  rw [rollingMeanW_congr w (fun j => ps.getD j 0) (fun j => qs.getD j 0) i
      (fun j hj => getD_eq_of_take_eq ps qs d j (le_trans hj hi) h),
    rollingStd_congr sqrtF w ps qs d i hi h]

theorem bollBuy_congr (sqrtF : ℚ → ℚ) (w : ℕ) (k : ℚ) (ps qs : List ℚ) (d i : ℕ)
    (hi : i ≤ d) (h : ps.take (d + 1) = qs.take (d + 1)) :
    bollBuy sqrtF w k ps i = bollBuy sqrtF w k qs i := by
  cases i with
  | zero => rfl
  | succ j =>
    simp only [bollBuy]
    rw [bbl_congr sqrtF w k ps qs d (j + 1) hi h, bbl_congr sqrtF w k ps qs d j (by omega) h,
      getD_eq_of_take_eq ps qs d (j + 1) hi h, getD_eq_of_take_eq ps qs d j (by omega) h]

theorem bollSell_congr (sqrtF : ℚ → ℚ) (w : ℕ) (k : ℚ) (ps qs : List ℚ) (d i : ℕ)
    (hi : i ≤ d) (h : ps.take (d + 1) = qs.take (d + 1)) :
    bollSell sqrtF w k ps i = bollSell sqrtF w k qs i := by
  cases i with
  | zero => rfl
  | succ j =>
    simp only [bollSell]
    rw [bbu_congr sqrtF w k ps qs d (j + 1) hi h, bbu_congr sqrtF w k ps qs d j (by omega) h,
      getD_eq_of_take_eq ps qs d (j + 1) hi h, getD_eq_of_take_eq ps qs d j (by omega) h]

end Strategy

/-- C3: no-lookahead for the signal generators.  For every
price-reading strategy of fund_backtester.strategy — moving-average
crossover, retro-threshold, MACD, RSI and Bollinger bands (the latter
for every square-root kernel, of which the floating-point square root
is one) — two price series that agree on all rows up to and including
date d produce the same signal at d: the signal at d is a function of
prices at dates at or before d only. -/
theorem no_lookahead (shortW longW lookback fastP slowP signalP rsiP bollW : ℕ)
    (buyT sellT oversold overbought bollK : ℚ) (sqrtF : ℚ → ℚ)
    (ps qs : List ℚ) (d : ℕ)
    (h : ps.take (d + 1) = qs.take (d + 1)) :
    Strategy.ma_crossover_signal shortW longW ps d
      = Strategy.ma_crossover_signal shortW longW qs d ∧
    Strategy.threshold_signal lookback buyT sellT ps d
      = Strategy.threshold_signal lookback buyT sellT qs d ∧
    Strategy.macd_signal fastP slowP signalP ps d
      = Strategy.macd_signal fastP slowP signalP qs d ∧
    Strategy.rsi_signal rsiP oversold overbought ps d
      = Strategy.rsi_signal rsiP oversold overbought qs d ∧
    Strategy.bollinger_signal sqrtF bollW bollK ps d
      = Strategy.bollinger_signal sqrtF bollW bollK qs d := by
  refine ⟨?_, ?_, ?_, ?_, ?_⟩
  · cases d with
    | zero => rfl
    | succ j =>
      simp only [Strategy.ma_crossover_signal]
      rw [Strategy.maPosition_congr shortW longW ps qs (j + 1) (j + 1) (le_refl _) h,
        Strategy.maPosition_congr shortW longW ps qs (j + 1) j (by omega) h]
  · unfold Strategy.threshold_signal Strategy.price_change_pct
    by_cases hlb : lookback ≤ d
    · rw [if_pos hlb, if_pos hlb,
        Strategy.getD_eq_of_take_eq ps qs d d (le_refl d) h,
        Strategy.getD_eq_of_take_eq ps qs d (d - lookback) (by omega) h]
    · rw [if_neg hlb, if_neg hlb]
  · cases d with
    | zero => rfl
    | succ j =>
      simp only [Strategy.macd_signal]
      rw [Strategy.positionLoop_congr _ _ _ _ (j + 1)
          (fun k hk => Strategy.macdBuy_congr fastP slowP signalP ps qs (j + 1) k hk h)
          (fun k hk => Strategy.macdSell_congr fastP slowP signalP ps qs (j + 1) k hk h),
        Strategy.positionLoop_congr _ _ _ _ j
          (fun k hk => Strategy.macdBuy_congr fastP slowP signalP ps qs (j + 1) k (by omega) h)
          (fun k hk => Strategy.macdSell_congr fastP slowP signalP ps qs (j + 1) k (by omega) h)]
  · cases d with
    | zero => rfl
    | succ j =>
      simp only [Strategy.rsi_signal]
      rw [Strategy.positionLoop_congr _ _ _ _ (j + 1)
          (fun k hk => Strategy.rsiBuy_congr rsiP oversold ps qs (j + 1) k hk h)
          (fun k hk => Strategy.rsiSell_congr rsiP overbought ps qs (j + 1) k hk h),
        Strategy.positionLoop_congr _ _ _ _ j
          (fun k hk => Strategy.rsiBuy_congr rsiP oversold ps qs (j + 1) k (by omega) h)
          (fun k hk => Strategy.rsiSell_congr rsiP overbought ps qs (j + 1) k (by omega) h)]
  · cases d with
    | zero => rfl
    | succ j =>
      simp only [Strategy.bollinger_signal]
      rw [Strategy.positionLoop_congr _ _ _ _ (j + 1)
          (fun k hk => Strategy.bollBuy_congr sqrtF bollW bollK ps qs (j + 1) k hk h)
          (fun k hk => Strategy.bollSell_congr sqrtF bollW bollK ps qs (j + 1) k hk h),
        Strategy.positionLoop_congr _ _ _ _ j
          (fun k hk => Strategy.bollBuy_congr sqrtF bollW bollK ps qs (j + 1) k (by omega) h)
          (fun k hk => Strategy.bollSell_congr sqrtF bollW bollK ps qs (j + 1) k (by omega) h)]

/-- Witness for C3: the series [1, 2, 3] and [1, 2, 4] agree through
date 1 and get identical signals there from all five strategies, with
the identity standing in as a concrete square-root kernel. -/
theorem no_lookahead_witness :
    Strategy.ma_crossover_signal 1 2 [1, 2, 3] 1
      = Strategy.ma_crossover_signal 1 2 [1, 2, 4] 1 ∧
    Strategy.threshold_signal 1 (-5) 5 [1, 2, 3] 1
      = Strategy.threshold_signal 1 (-5) 5 [1, 2, 4] 1 ∧
    Strategy.macd_signal 2 3 2 [1, 2, 3] 1
      = Strategy.macd_signal 2 3 2 [1, 2, 4] 1 ∧
    Strategy.rsi_signal 2 30 70 [1, 2, 3] 1
      = Strategy.rsi_signal 2 30 70 [1, 2, 4] 1 ∧
    Strategy.bollinger_signal (fun x => x) 2 2 [1, 2, 3] 1
      = Strategy.bollinger_signal (fun x => x) 2 2 [1, 2, 4] 1 :=
  no_lookahead 1 2 1 2 3 2 2 2 (-5) 5 30 70 2 (fun x => x) [1, 2, 3] [1, 2, 4] 1 rfl

namespace App

/-- series.cummax() in app.calculate_max_drawdown, carried over possible
NaN (`none`) entries: a NaN row stays NaN in the output while the
running maximum is carried across it. -/
def cummaxAux (m : Option ℚ) : List (Option ℚ) → List (Option ℚ)
  | [] => []
  | none :: xs => none :: cummaxAux m xs
  | some v :: xs =>
    match m with
    | none => some v :: cummaxAux (some v) xs
    | some mv => some (max mv v) :: cummaxAux (some (max mv v)) xs

/-- Series.min(): the smallest element, none for an empty series (NaN
entries are already filtered out by the caller). -/
def listMin : List ℚ → Option ℚ
  | [] => none
  | x :: xs => some ((listMin xs).elim x (min x))

/-- app.calculate_max_drawdown: 0 for an empty or all-NaN series,
otherwise min((series - cummax) / cummax) * 100, with 0 when that
minimum is NaN (no valid rows). -/
def calculate_max_drawdown (series : List (Option ℚ)) : ℚ :=
  if series.isEmpty || series.all (fun x => x.isNone) then 0
  else
    let cm := cummaxAux none series
    let drawdown := series.zipWith (fun v m =>
      match v, m with
      | some a, some b => some ((a - b) / b)
      | _, _ => none) cm
    match listMin (drawdown.filterMap id) with
    | none => 0
    | some m => m * 100

/-- The running maximum of value[0..d], as the claim's formula states
it. -/
def runningMax : List ℚ → ℕ → ℚ
  | [], _ => 0
  | x :: _, 0 => x
  | x :: xs, d + 1 => max x (runningMax xs d)

/-- Max drawdown as the claim states it: the minimum over dates d of
(value[d] - running_max(value[0..d])) / running_max(value[0..d]),
times 100, and 0 for an empty series. -/
def spec_max_drawdown (s : List ℚ) : ℚ :=
  ((listMin ((List.range s.length).map fun d =>
    (s.getD d 0 - runningMax s d) / runningMax s d)).getD 0) * 100

/-- NaN-free running-maximum scan seeded with m, used to relate cummax
to the claim's runningMax. -/
def cummaxQ (m : ℚ) : List ℚ → List ℚ
  | [] => []
  | x :: xs => max m x :: cummaxQ (max m x) xs

theorem cummaxAux_some_map (m : ℚ) (l : List ℚ) :
    cummaxAux (some m) (l.map some) = (cummaxQ m l).map some := by
  induction l generalizing m with
  | nil => rfl
  | cons x xs ih =>
    rw [List.map_cons, cummaxAux, cummaxQ, List.map_cons, ih]

theorem runningMax_cons_cons (m y : ℚ) (ys : List ℚ) (d : ℕ) :
    runningMax (m :: y :: ys) (d + 2) = runningMax (max m y :: ys) (d + 1) := by
  rw [runningMax, runningMax, runningMax, max_assoc]

theorem cummaxQ_eq_runningMax (l : List ℚ) :
    ∀ m : ℚ, cummaxQ m l
      = (List.range l.length).map fun d => runningMax (m :: l) (d + 1) := by
  induction l with
  | nil => intro m; rfl
  | cons y ys ih =>
    intro m
    rw [cummaxQ, ih (max m y)]
    simp only [List.length_cons, List.range_succ_eq_map, List.map_cons, List.map_map]
    refine List.cons_eq_cons.mpr ⟨?_, ?_⟩
    · show max m y = runningMax (m :: y :: ys) (0 + 1)
      rw [runningMax, runningMax]
    · apply List.map_congr_left
      intro d _
      show runningMax (max m y :: ys) (d + 1) = runningMax (m :: y :: ys) (Nat.succ d + 1)
      exact (runningMax_cons_cons m y ys d).symm

theorem zipWith_map_range (g : ℚ → ℚ → ℚ) (l : List ℚ) :
    ∀ k : ℕ → ℚ, l.zipWith g ((List.range l.length).map k)
      = (List.range l.length).map fun d => g (l.getD d 0) (k d) := by
  induction l with
  | nil => intro k; rfl
  | cons y ys ih =>
    intro k
    simp only [List.length_cons, List.range_succ_eq_map, List.map_cons, List.map_map,
      List.zipWith_cons_cons]
    rw [ih (k ∘ Nat.succ)]
    refine List.cons_eq_cons.mpr ⟨rfl, ?_⟩
    apply List.map_congr_left
    intro d _
    rfl

theorem filterMap_id_map_some (l : List ℚ) :
    (l.map some).filterMap id = l := by
  induction l with
  | nil => rfl
  | cons x xs ih =>
    rw [List.map_cons, List.filterMap_cons]
    show x :: (xs.map some).filterMap id = x :: xs
    rw [ih]

theorem zipWith_opt_map_some (g : ℚ → ℚ → ℚ) (as bs : List ℚ) :
    List.zipWith (fun v m =>
      match v, m with
      | some a, some b => some (g a b)
      | _, _ => none) (as.map some) (bs.map some)
      = (as.zipWith g bs).map some := by
  induction as generalizing bs with
  | nil => cases bs <;> rfl
  | cons a as ih =>
    cases bs with
    | nil => rfl
    | cons b bs =>
      rw [List.map_cons, List.map_cons, List.zipWith_cons_cons, List.zipWith_cons_cons,
        List.map_cons, ih bs]

theorem calculate_max_drawdown_map_some (s : List ℚ) :
    calculate_max_drawdown (s.map some) = spec_max_drawdown s := by
  cases s with
  | nil => simp [calculate_max_drawdown, spec_max_drawdown, listMin]
  | cons x xs =>
    have hlist : (((x :: xs).map some).zipWith
        (fun v m => match v, m with
          | some a, some b => some ((a - b) / b)
          | _, _ => none) (cummaxAux none ((x :: xs).map some))).filterMap id
        = (List.range (x :: xs).length).map fun d =>
            ((x :: xs).getD d 0 - runningMax (x :: xs) d) / runningMax (x :: xs) d := by
      rw [List.map_cons, cummaxAux, cummaxAux_some_map x xs, cummaxQ_eq_runningMax xs x,
        List.zipWith_cons_cons,
        zipWith_opt_map_some (fun a b => (a - b) / b) xs _,
        zipWith_map_range (fun a b => (a - b) / b) xs _,
        List.filterMap_cons]
      dsimp only
      rw [filterMap_id_map_some, List.length_cons, List.range_succ_eq_map, List.map_cons,
        List.map_map]
      refine List.cons_eq_cons.mpr ⟨rfl, List.map_congr_left fun d _ => rfl⟩
    unfold calculate_max_drawdown spec_max_drawdown
    rw [if_neg (by simp)]
    dsimp only
    rw [hlist]
    cases hmin : listMin ((List.range (x :: xs).length).map fun d =>
        ((x :: xs).getD d 0 - runningMax (x :: xs) d) / runningMax (x :: xs) d) with
    | none =>
      rw [List.length_cons, List.range_succ_eq_map, List.map_cons, listMin] at hmin
      cases hmin
    | some m => rw [Option.getD_some]

end App

/-- C6: max drawdown definition.  app.calculate_max_drawdown equals, on
every NaN-free value series, the claim's formula min over d of
(value[d] - running_max(value[0..d])) / running_max(value[0..d]) times
100; it is 0 on the empty series and on every all-NaN series; and the
series [100, 120, 90, 95] yields exactly -25. -/
theorem max_drawdown_formula (s : List ℚ) (t : List (Option ℚ))
    (ht : ∀ x ∈ t, x = none) :
    App.calculate_max_drawdown (s.map some) = App.spec_max_drawdown s ∧
    App.calculate_max_drawdown [] = 0 ∧
    App.calculate_max_drawdown t = 0 ∧
    App.calculate_max_drawdown ([100, 120, 90, 95].map some) = -25 := by
  refine ⟨App.calculate_max_drawdown_map_some s, rfl, ?_, by with_unfolding_all rfl⟩
  unfold App.calculate_max_drawdown
  have hcond : (t.isEmpty || t.all fun x => x.isNone) = true := by
    rw [Bool.or_eq_true, List.all_eq_true]
    right
    intro x hx
    rw [ht x hx]
    rfl
  rw [if_pos hcond]

/-- Witness for C6 with the NaN-free series [1, 2] and the all-NaN
series [none]. -/
theorem max_drawdown_formula_witness :
    App.calculate_max_drawdown ([1, 2].map some) = App.spec_max_drawdown [1, 2] ∧
    App.calculate_max_drawdown [] = 0 ∧
    App.calculate_max_drawdown [none] = 0 ∧
    App.calculate_max_drawdown ([100, 120, 90, 95].map some) = -25 :=
  max_drawdown_formula [1, 2] [none] (by intro x hx; fin_cases hx; rfl)

namespace FundBacktest

/-- nav.pct_change() with the leading NaN dropped (returns.dropna() in
FundBacktester.calculate_metrics): consecutive ratios minus one. -/
def pct_change_returns (nav : List ℚ) : List ℚ :=
  (nav.zip (nav.drop 1)).map fun p => p.2 / p.1 - 1

/-- The rational-valued fields of FundBacktester.calculate_metrics.
Annualized return, volatility and the Sharpe ratio involve real powers
and square roots of these same quantities; no claim needs their values,
so they are omitted from the record. -/
structure MetricsQ where
  total_return : ℚ
  max_drawdown : ℚ
  win_rate : ℚ
  trading_days : ℕ
deriving DecidableEq, Repr

/-- (1 + returns).cumprod(), seeded with the accumulator. -/
def cumprodAux (acc : ℚ) : List ℚ → List ℚ
  | [] => []
  | x :: xs => (acc * x) :: cumprodAux (acc * x) xs

/-- cumulative.expanding().max(): the running maximum of the prefix. -/
def expandingMax : List ℚ → List ℚ
  | [] => []
  | x :: xs => x :: App.cummaxQ x xs

/-- FundBacktester.calculate_metrics.  `none` models a raised Python
exception: nav.iloc[-1] and nav.iloc[0] raise IndexError on an empty
frame, and annual_return computes 252 / len(returns), raising
ZeroDivisionError whenever the return series is empty (every single-row
input).  Otherwise the rational metrics are computed: total return from
last over first, max drawdown from the cumulative product of
(1 + returns) against its expanding maximum, win rate as the share of
positive returns. -/
def calculate_metrics (nav : List ℚ) : Option MetricsQ :=
  match nav with
  | [] => none
  | n0 :: rest =>
    let returns := pct_change_returns (n0 :: rest)
    if returns.length = 0 then none
    else
      let totalReturn := ((n0 :: rest).getLast (by simp) / n0 - 1) * 100
      let cumulative := cumprodAux 1 (returns.map fun r => 1 + r)
      some
        { total_return := totalReturn,
          max_drawdown :=
            (App.listMin (cumulative.zipWith (fun c m => (c - m) / m)
              (expandingMax cumulative))).getD 0 * 100,
          win_rate :=
            (((returns.filter fun r => decide (0 < r)).length : ℚ)
              / (returns.length : ℚ)) * 100,
          trading_days := returns.length }

end FundBacktest

namespace App

/-- dca_final_value / thr_final_value in app.run_backtest: the series'
last value when the series is nonempty, else 0. -/
def final_value (series : List ℚ) : ℚ := series.getLast?.getD 0

/-- The guarded return-rate computation of app.run_backtest: the
percentage (final / invested - 1) * 100 when total invested is
positive, else 0. -/
def return_rate (finalValue totalInvested : ℚ) : ℚ :=
  if 0 < totalInvested then (finalValue / totalInvested - 1) * 100 else 0

end App

/-- C7 counterexample: FundBacktester.calculate_metrics does not degrade
gracefully on too-short input.  On the single-row series [1] the Python
code raises ZeroDivisionError (annual_return computes 252 /
len(returns) with an empty return series), and on the empty series it
raises IndexError at nav.iloc[-1]; both raised exceptions are modelled
as `none`.  So the claim that every metric computation returns 0 or a
defined sentinel and none raises is false. -/
theorem metrics_raise_counterexample :
    (FundBacktest.calculate_metrics [1]).isSome = false ∧
    (FundBacktest.calculate_metrics []).isSome = false :=
  ⟨rfl, rfl⟩

/-- C7 amended: app.run_backtest's return rate is guarded: it equals the
percentage ratio formula when total invested is positive, 0 when it is
0, and the final value of an empty series is 0, with no failure path;
FundBacktester.calculate_metrics, however, raises (modelled as none)
exactly on input series of length < 2 instead of degrading, and
returns defined values for every series of length >= 2. -/
theorem metrics_degrade_amended (nav : List ℚ) (fv ti : ℚ) (hti : 0 < ti) :
    (FundBacktest.calculate_metrics nav).isSome = decide (2 ≤ nav.length) ∧
    App.return_rate fv ti = (fv / ti - 1) * 100 ∧
    App.return_rate fv 0 = 0 ∧
    App.final_value [] = 0 := by
  refine ⟨?_, if_pos hti, if_neg (lt_irrefl 0), rfl⟩
  cases nav with
  | nil => rfl
  | cons n0 rest =>
    cases rest with
    | nil => rfl
    | cons r rest2 =>
      have hz : ¬ (FundBacktest.pct_change_returns (n0 :: r :: rest2)).length = 0 := by
        unfold FundBacktest.pct_change_returns
        rw [List.length_map, List.length_zip]
        simp
      unfold FundBacktest.calculate_metrics
      dsimp only
      rw [if_neg hz]
      simp

/-- Witness for the amended C7 theorem at nav = [1, 2], final value 3
and total invested 2. -/
theorem metrics_degrade_amended_witness :
    (FundBacktest.calculate_metrics [1, 2]).isSome = decide (2 ≤ ([1, 2] : List ℚ).length) ∧
    App.return_rate 3 2 = ((3 : ℚ) / 2 - 1) * 100 ∧
    App.return_rate 3 0 = 0 ∧
    App.final_value [] = 0 :=
  metrics_degrade_amended [1, 2] 3 2 (by norm_num)

namespace App

/-- A calendar date (year, month, day of month), mirroring the pandas
Timestamp fields used by get_dca_investment_dates. -/
structure Date where
  year : ℕ
  month : ℕ
  day : ℕ
deriving DecidableEq, Repr

/-- Gregorian leap year test. -/
def isLeap (y : ℕ) : Bool :=
  (y % 4 == 0 && y % 100 != 0) || y % 400 == 0

/-- Timestamp.days_in_month. -/
def daysInMonth (y m : ℕ) : ℕ :=
  if m = 2 then (if isLeap y then 29 else 28)
  else if m = 4 ∨ m = 6 ∨ m = 9 ∨ m = 11 then 30
  else 31

/-- Timestamp order: lexicographic on (year, month, day), non-strict. -/
def Date.Le (a b : Date) : Prop :=
  a.year < b.year ∨ (a.year = b.year ∧ (a.month < b.month ∨
    (a.month = b.month ∧ a.day ≤ b.day)))

/-- Timestamp order: lexicographic on (year, month, day), strict. -/
def Date.Lt (a b : Date) : Prop :=
  a.year < b.year ∨ (a.year = b.year ∧ (a.month < b.month ∨
    (a.month = b.month ∧ a.day < b.day)))

instance (a b : Date) : Decidable (Date.Le a b) := by
  unfold Date.Le
  infer_instance

instance (a b : Date) : Decidable (Date.Lt a b) := by
  unfold Date.Lt
  infer_instance

/-- The distinct calendar months of the index rows in first-occurrence
order: the nonempty groups of groupby(pd.Grouper(freq=MS)). -/
def monthsOf (dates : List Date) : List (ℕ × ℕ) :=
  (dates.map fun d => (d.year, d.month)).dedup

/-- One calendar month's group: the index rows falling in month ym. -/
def monthGroup (dates : List Date) (ym : ℕ × ℕ) : List Date :=
  dates.filter fun d => decide (d.year = ym.1 ∧ d.month = ym.2)

/-- One iteration of the monthly loop of get_dca_investment_dates
(app.py lines 221-229): month_start is the group's first row,
actual_day = min(day, month_start.days_in_month), target_date =
month_start.replace(day=actual_day), the candidate is the first row of
the whole index on or after target_date, and it is kept only when it
falls in target_date's own month and year. -/
def selectForMonth (dates : List Date) (day : ℕ) (ym : ℕ × ℕ) : Option Date :=
  match (monthGroup dates ym).head? with
  | none => none
  | some monthStart =>
    let actualDay := min day (daysInMonth monthStart.year monthStart.month)
    let target : Date := ⟨monthStart.year, monthStart.month, actualDay⟩
    match (dates.filter fun d => decide (Date.Le target d)).head? with
    | none => none
    | some actual =>
      if actual.month = target.month ∧ actual.year = target.year then some actual
      else none

/-- get_dca_investment_dates for monthly frequency: iterate the calendar
months of the valid rows and collect the selected dates.  (The Python
set is returned sorted; for a sorted index the collected dates are
already in increasing order.) -/
def get_dca_investment_dates (dates : List Date) (day : ℕ) : List Date :=
  (monthsOf dates).filterMap (selectForMonth dates day)

/-- The DCA monthly selection as the claim states it: for each calendar
month of the series, the first trading day of that month whose
day-of-month is at least the configured day clamped to the month's day
count; a month with no such trading day is skipped. -/
def spec_dca_dates (dates : List Date) (day : ℕ) : List Date :=
  (monthsOf dates).filterMap fun ym =>
    ((monthGroup dates ym).filter fun d =>
      decide (min day (daysInMonth ym.1 ym.2) ≤ d.day)).head?

theorem Date.Le_iff_day (y m ad : ℕ) (d : Date) (hy : d.year = y) (hm : d.month = m) :
    Date.Le ⟨y, m, ad⟩ d ↔ ad ≤ d.day := by
  unfold Date.Le
  dsimp only
  omega

theorem no_inmonth_after (t a d : Date) (hta : Date.Le t a) (had : Date.Lt a d)
    (hd : d.year = t.year ∧ d.month = t.month)
    (ha : ¬ (a.month = t.month ∧ a.year = t.year)) : False := by
  unfold Date.Le at hta
  unfold Date.Lt at had
  omega

theorem filterMap_congr_mem {α β : Type} (l : List α) (f g : α → Option β)
    (h : ∀ a ∈ l, f a = g a) : l.filterMap f = l.filterMap g := by
  induction l with
  | nil => rfl
  | cons x xs ih =>
    rw [List.filterMap_cons, List.filterMap_cons, h x (List.mem_cons_self _ _),
      ih fun a ha => h a (List.mem_cons_of_mem _ ha)]

theorem spec_filter_eq (dates : List Date) (day : ℕ) (y m : ℕ) :
    (monthGroup dates (y, m)).filter (fun d => decide (min day (daysInMonth y m) ≤ d.day))
      = (dates.filter fun d =>
          decide (Date.Le ⟨y, m, min day (daysInMonth y m)⟩ d)).filter
          (fun d => decide (d.year = y ∧ d.month = m)) := by
  unfold monthGroup
  rw [List.filter_filter, List.filter_filter]
  apply List.filter_congr
  intro d _
  by_cases hdm : d.year = y ∧ d.month = m
  · have hiff := Date.Le_iff_day y m (min day (daysInMonth y m)) d hdm.1 hdm.2
    by_cases hday : min day (daysInMonth y m) ≤ d.day
    · simp [hdm, hday, hiff.mpr hday]
    · have hnle : ¬ Date.Le ⟨y, m, min day (daysInMonth y m)⟩ d :=
        fun hle => hday (hiff.mp hle)
      simp [hday, hnle]
  · simp [hdm]

theorem selectForMonth_eq_spec (dates : List Date) (day : ℕ) (ym : ℕ × ℕ)
    (hs : dates.Pairwise Date.Lt) (hym : ym ∈ monthsOf dates) :
    selectForMonth dates day ym
      = ((monthGroup dates ym).filter fun d =>
          decide (min day (daysInMonth ym.1 ym.2) ≤ d.day)).head? := by
  obtain ⟨y, m⟩ := ym
  dsimp only
  obtain ⟨d0, hd0mem, hd0ym⟩ := List.mem_map.mp (List.mem_dedup.mp hym)
  rw [spec_filter_eq dates day y m]
  have hd0G : d0 ∈ monthGroup dates (y, m) := by
    apply List.mem_filter.mpr
    refine ⟨hd0mem, ?_⟩
    have h1 : d0.year = y := congrArg Prod.fst hd0ym
    have h2 : d0.month = m := congrArg Prod.snd hd0ym
    simp [h1, h2]
  cases hGc : monthGroup dates (y, m) with
  | nil => rw [hGc] at hd0G; cases hd0G
  | cons ms G2 =>
    have hmsG : ms ∈ monthGroup dates (y, m) := by
      rw [hGc]; exact List.mem_cons_self _ _
    have hmsy : ms.year = y := by
      have := (List.mem_filter.mp hmsG).2
      simp at this
      exact this.1
    have hmsm : ms.month = m := by
      have := (List.mem_filter.mp hmsG).2
      simp at this
      exact this.2
    unfold selectForMonth
    rw [hGc]
    dsimp only [List.head?]
    rw [hmsy, hmsm]
    cases hC : dates.filter (fun d =>
        decide (Date.Le ⟨y, m, min day (daysInMonth y m)⟩ d)) with
    | nil => rfl
    | cons a C2 =>
      have haC : a ∈ dates.filter (fun d =>
          decide (Date.Le ⟨y, m, min day (daysInMonth y m)⟩ d)) := by
        rw [hC]; exact List.mem_cons_self _ _
      have haLe : Date.Le ⟨y, m, min day (daysInMonth y m)⟩ a := by
        have := (List.mem_filter.mp haC).2
        exact of_decide_eq_true this
      dsimp only [List.head?]
      by_cases hin : a.month = m ∧ a.year = y
      · rw [if_pos hin, List.filter_cons_of_pos (by simp [hin.1, hin.2])]
      · rw [if_neg hin, List.filter_cons_of_neg (by
          simp only [decide_eq_true_eq]
          intro hc
          exact hin ⟨hc.2, hc.1⟩)]
        have hC2 : ∀ d ∈ C2, ¬ (d.year = y ∧ d.month = m) := by
          intro d hdC2 hdin
          have hsorted : (dates.filter (fun d =>
              decide (Date.Le ⟨y, m, min day (daysInMonth y m)⟩ d))).Pairwise Date.Lt :=
            hs.filter _
          rw [hC] at hsorted
          have hlt : Date.Lt a d := (List.pairwise_cons.mp hsorted).1 d hdC2
          exact no_inmonth_after ⟨y, m, min day (daysInMonth y m)⟩ a d haLe hlt
            ⟨hdin.1, hdin.2⟩ hin
        rw [List.filter_eq_nil.mpr (by
          intro d hd
          simp only [decide_eq_true_eq]
          exact hC2 d hd)]

end App

/-- Ninety consecutive calendar days, 2024-01-01 through 2024-03-30,
the concrete three-month scenario of the claim. -/
def trading90 : List App.Date :=
  ((List.range 31).map fun k => (⟨2024, 1, k + 1⟩ : App.Date)) ++
  ((List.range 29).map fun k => (⟨2024, 2, k + 1⟩ : App.Date)) ++
  ((List.range 30).map fun k => (⟨2024, 3, k + 1⟩ : App.Date))

/-- C8: DCA monthly date selection.  For every date-sorted index,
get_dca_investment_dates with monthly frequency selects exactly, for
each calendar month of the series, the first trading day of that month
on or after the configured day-of-month clamped to the month's day
count, skipping months with no such trading day; and the concrete
90-day series spanning January-March 2024 with day 1 yields exactly the
three dates 1 Jan, 1 Feb, 1 Mar (hence exactly 3 invest transactions,
one per month, since app.run_backtest invests on each selected
date). -/
theorem dca_monthly_selection (dates : List App.Date) (day : ℕ)
    (hs : dates.Pairwise App.Date.Lt) :
    App.get_dca_investment_dates dates day = App.spec_dca_dates dates day ∧
    App.get_dca_investment_dates trading90 1
      = [⟨2024, 1, 1⟩, ⟨2024, 2, 1⟩, ⟨2024, 3, 1⟩] ∧
    (App.get_dca_investment_dates trading90 1).length = 3 := by
  refine ⟨?_, by decide, by decide⟩
  unfold App.get_dca_investment_dates App.spec_dca_dates
  exact App.filterMap_congr_mem _ _ _ fun ym hym =>
    App.selectForMonth_eq_spec dates day ym hs hym

/-- Witness for C8 on the 90-day three-month fixture. -/
theorem dca_monthly_selection_witness :
    App.get_dca_investment_dates trading90 1 = App.spec_dca_dates trading90 1 ∧
    App.get_dca_investment_dates trading90 1
      = [⟨2024, 1, 1⟩, ⟨2024, 2, 1⟩, ⟨2024, 3, 1⟩] ∧
    (App.get_dca_investment_dates trading90 1).length = 3 :=
  dca_monthly_selection trading90 1 (by decide)

namespace DataManager

/-- The reindex lookup of fund_data.reindex(trade_cal): the observed
close at a given calendar date, none (NaN) when the date carries no
observation.  Dates are epoch day numbers; duplicate observation dates
would make pandas raise, so lookups take the first match. -/
def lookup (obs : List (ℕ × ℚ)) (d : ℕ) : Option ℚ :=
  (obs.find? fun p => p.1 == d).map Prod.snd

/-- fund_data.reindex(trade_cal): one close per calendar date. -/
def reindexClose (obs : List (ℕ × ℚ)) (cal : List ℕ) : List (Option ℚ) :=
  cal.map (lookup obs)

/-- DataFrame.ffill(): carry the most recent earlier valid value over
NaN rows. -/
def ffillAux (carry : Option ℚ) : List (Option ℚ) → List (Option ℚ)
  | [] => []
  | some v :: xs => some v :: ffillAux (some v) xs
  | none :: xs => carry :: ffillAux carry xs

/-- DataFrame.bfill(): fill each remaining NaN row with the next later
valid value (none when no later valid value exists). -/
def bfillList : List (Option ℚ) → List (Option ℚ)
  | [] => []
  | x :: xs =>
    (match x with
     | some v => some v
     | none => (xs.filterMap id).head?) :: bfillList xs

/-- The alignment core of data_manager.get_fund_history (the fetching,
renaming and derived percent-change column are I/O or derived data):
filter the raw observations to [start, end], return the empty-frame
failure (`none`) when nothing remains, else reindex onto the trading
calendar, forward-fill, then back-fill, and pair with the calendar
dates. -/
def get_fund_history (obs : List (ℕ × ℚ)) (cal : List ℕ) (startD endD : ℕ) :
    Option (List (ℕ × Option ℚ)) :=
  let inRange := obs.filter fun p => decide (startD ≤ p.1 ∧ p.1 ≤ endD)
  if inRange.isEmpty then none
  else some (cal.zip (bfillList (ffillAux none (reindexClose inRange cal))))

/-- The most recent genuine observation lying on the calendar at or
before date c: scan the calendar dates up to c in order and keep the
last that carries an observation.  This is the claim's forward-fill
source, restricted (as the code forces) to observations whose date is
on the calendar. -/
def lastObsOnCal (obs : List (ℕ × ℚ)) (cal : List ℕ) (c : ℕ) : Option ℚ :=
  ((cal.filter fun d => decide (d ≤ c)).filterMap (lookup obs)).getLast?

/-- The first genuine observation lying on the calendar: the claim's
back-fill source for leading gaps. -/
def firstObsOnCal (obs : List (ℕ × ℚ)) (cal : List ℕ) : Option ℚ :=
  (cal.filterMap (lookup obs)).head?

/-- The aligned closing value the claim describes for calendar date c:
the most recent earlier on-calendar observation, or, for leading gaps,
the first on-calendar observation. -/
def specFill (obs : List (ℕ × ℚ)) (cal : List ℕ) (c : ℕ) : Option ℚ :=
  match lastObsOnCal obs cal c with
  | some v => some v
  | none => firstObsOnCal obs cal

/-- The last element of a list, or a supplied default option. -/
def lastD (l : List ℚ) (c : Option ℚ) : Option ℚ :=
  l.getLast?.elim c some

theorem reindexClose_cons (R : List (ℕ × ℚ)) (c0 : ℕ) (cal2 : List ℕ) :
    reindexClose R (c0 :: cal2) = lookup R c0 :: reindexClose R cal2 := rfl

theorem lastD_cons (v : ℚ) (t : List ℚ) (c : Option ℚ) :
    lastD (v :: t) c = lastD t (some v) := by
  cases t with
  | nil => rfl
  | cons w t2 =>
    unfold lastD
    rw [List.getLast?_cons_cons]
    cases hL : (w :: t2).getLast? with
    | none => exact absurd (List.getLast?_eq_none_iff.mp hL) (by simp)
    | some u => rfl

theorem lastD_none_eq_none_iff (l : List ℚ) : lastD l none = none ↔ l = [] := by
  unfold lastD
  constructor
  · intro h
    cases hL : l.getLast? with
    | none => exact List.getLast?_eq_none_iff.mp hL
    | some u => rw [hL] at h; cases h
  · intro h
    subst h
    rfl

theorem ffill_eq_map_lastD (R : List (ℕ × ℚ)) (cal : List ℕ) :
    ∀ carry : Option ℚ, cal.Pairwise (· < ·) →
      ffillAux carry (reindexClose R cal)
        = cal.map fun c =>
            lastD ((cal.filter fun d => decide (d ≤ c)).filterMap (lookup R)) carry := by
  induction cal with
  | nil => intro carry _; rfl
  | cons c0 cal2 ih =>
    intro carry hs
    have hlt : ∀ d ∈ cal2, c0 < d := (List.pairwise_cons.mp hs).1
    have hs2 : cal2.Pairwise (· < ·) := (List.pairwise_cons.mp hs).2
    have htail0 : cal2.filter (fun d => decide (d ≤ c0)) = [] := by
      rw [List.filter_eq_nil]
      intro d hd
      simp only [decide_eq_true_eq]
      have := hlt d hd
      omega
    have hfhead : (c0 :: cal2).filter (fun d => decide (d ≤ c0)) = [c0] := by
      rw [List.filter_cons_of_pos (by simp), htail0]
    have hftail : ∀ c ∈ cal2, (c0 :: cal2).filter (fun d => decide (d ≤ c))
        = c0 :: cal2.filter (fun d => decide (d ≤ c)) := by
      intro c hc
      exact List.filter_cons_of_pos (by
        simp only [decide_eq_true_eq]
        exact le_of_lt (hlt c hc))
    rw [reindexClose_cons]
    simp only [List.map_cons]
    cases hl0 : lookup R c0 with
    | some v =>
      simp only [ffillAux]
      rw [ih (some v) hs2]
      refine List.cons_eq_cons.mpr ⟨?_, ?_⟩
      · rw [hfhead, List.filterMap_cons, hl0, List.filterMap_nil]
        rfl
      · apply List.map_congr_left
        intro c hc
        rw [hftail c hc, List.filterMap_cons, hl0]
        exact (lastD_cons v _ carry).symm
    | none =>
      simp only [ffillAux]
      rw [ih carry hs2]
      refine List.cons_eq_cons.mpr ⟨?_, ?_⟩
      · rw [hfhead, List.filterMap_cons, hl0, List.filterMap_nil]
        rfl
      · apply List.map_congr_left
        intro c hc
        rw [hftail c hc, List.filterMap_cons, hl0]

theorem bfill_spec (l : List (Option ℚ))
    (hmono : l.Pairwise fun a b => b = none → a = none) :
    bfillList l = l.map fun x => x.elim ((l.filterMap id).head?) some := by
  induction l with
  | nil => rfl
  | cons x xs ih =>
    have hhead := (List.pairwise_cons.mp hmono).1
    have htail := (List.pairwise_cons.mp hmono).2
    cases x with
    | none =>
      simp only [bfillList, List.map_cons]
      exact List.cons_eq_cons.mpr ⟨rfl, ih htail⟩
    | some v =>
      simp only [bfillList, List.map_cons]
      rw [ih htail]
      refine List.cons_eq_cons.mpr ⟨rfl, ?_⟩
      apply List.map_congr_left
      intro y hy
      cases y with
      | some w => rfl
      | none => exact absurd (hhead none hy rfl) (by simp)

theorem fmap_none_mono (R : List (ℕ × ℚ)) (cal : List ℕ)
    (hcal : cal.Pairwise (· < ·)) :
    (cal.map fun c =>
      lastD ((cal.filter fun d => decide (d ≤ c)).filterMap (lookup R)) none).Pairwise
      (fun a b => b = none → a = none) := by
  refine List.pairwise_map.mpr (List.Pairwise.imp ?_ hcal)
  intro a b hab hbnone
  rw [lastD_none_eq_none_iff] at hbnone ⊢
  rw [List.filterMap_eq_nil_iff] at hbnone ⊢
  intro d hd
  apply hbnone d
  have hd2 := List.mem_filter.mp hd
  refine List.mem_filter.mpr ⟨hd2.1, ?_⟩
  simp only [decide_eq_true_eq] at hd2 ⊢
  omega

theorem firstSome_eq_firstObs (R : List (ℕ × ℚ)) (cal : List ℕ)
    (hcal : cal.Pairwise (· < ·)) :
    ((cal.map fun c =>
      lastD ((cal.filter fun d => decide (d ≤ c)).filterMap (lookup R)) none).filterMap
        id).head? = firstObsOnCal R cal := by
  induction cal with
  | nil => rfl
  | cons c0 cal2 ih =>
    have hlt : ∀ d ∈ cal2, c0 < d := (List.pairwise_cons.mp hcal).1
    have hs2 : cal2.Pairwise (· < ·) := (List.pairwise_cons.mp hcal).2
    have htail0 : cal2.filter (fun d => decide (d ≤ c0)) = [] := by
      rw [List.filter_eq_nil]
      intro d hd
      simp only [decide_eq_true_eq]
      have := hlt d hd
      omega
    have hfhead : (c0 :: cal2).filter (fun d => decide (d ≤ c0)) = [c0] := by
      rw [List.filter_cons_of_pos (by simp), htail0]
    have hftail : ∀ c ∈ cal2, (c0 :: cal2).filter (fun d => decide (d ≤ c))
        = c0 :: cal2.filter (fun d => decide (d ≤ c)) := by
      intro c hc
      exact List.filter_cons_of_pos (by
        simp only [decide_eq_true_eq]
        exact le_of_lt (hlt c hc))
    unfold firstObsOnCal
    simp only [List.map_cons, List.filterMap_cons, hfhead]
    cases hl0 : lookup R c0 with
    | some v => rfl
    | none =>
      have hmapeq : (cal2.map fun c =>
          lastD (((c0 :: cal2).filter fun d => decide (d ≤ c)).filterMap (lookup R)) none)
          = cal2.map fun c =>
            lastD ((cal2.filter fun d => decide (d ≤ c)).filterMap (lookup R)) none := by
        apply List.map_congr_left
        intro c hc
        rw [hftail c hc, List.filterMap_cons, hl0]
      rw [hmapeq]
      exact ih hs2

theorem filled_eq_specFill (R : List (ℕ × ℚ)) (cal : List ℕ)
    (hcal : cal.Pairwise (· < ·)) :
    bfillList (ffillAux none (reindexClose R cal)) = cal.map (specFill R cal) := by
  rw [ffill_eq_map_lastD R cal none hcal, bfill_spec _ (fmap_none_mono R cal hcal),
    List.map_map]
  apply List.map_congr_left
  intro c hc
  show (lastD ((cal.filter fun d => decide (d ≤ c)).filterMap (lookup R)) none).elim
      (((cal.map fun c =>
        lastD ((cal.filter fun d => decide (d ≤ c)).filterMap (lookup R)) none).filterMap
          id).head?) some
    = specFill R cal c
  rw [firstSome_eq_firstObs R cal hcal]
  unfold specFill lastObsOnCal lastD
  cases hL : ((cal.filter fun d => decide (d ≤ c)).filterMap (lookup R)).getLast? with
  | none => rfl
  | some u => rfl

theorem get_fund_history_some (obs : List (ℕ × ℚ)) (cal : List ℕ) (startD endD : ℕ)
    (out : List (ℕ × Option ℚ))
    (hout : get_fund_history obs cal startD endD = some out) :
    out = cal.zip (bfillList (ffillAux none
      (reindexClose (obs.filter fun p => decide (startD ≤ p.1 ∧ p.1 ≤ endD)) cal))) := by
  unfold get_fund_history at hout
  dsimp only at hout
  split at hout
  · cases hout
  · exact (Option.some.inj hout).symm

theorem zip_map_self {α β : Type} (l : List α) (g : α → β) :
    l.zip (l.map g) = l.map fun a => (a, g a) := by
  induction l with
  | nil => rfl
  | cons x xs ih => rw [List.map_cons, List.zip_cons_cons, ih, List.map_cons]

theorem lookup_some_mem (R : List (ℕ × ℚ)) (d : ℕ) (x : ℚ) (h : lookup R d = some x) :
    ∃ p ∈ R, p.2 = x := by
  unfold lookup at h
  cases hf : R.find? (fun p => p.1 == d) with
  | none => rw [hf] at h; cases h
  | some p =>
    rw [hf] at h
    exact ⟨p, List.mem_of_find?_eq_some hf, Option.some.inj h⟩

theorem specFill_some_mem (R : List (ℕ × ℚ)) (cal : List ℕ) (c : ℕ) (x : ℚ)
    (h : specFill R cal c = some x) : ∃ p ∈ R, p.2 = x := by
  unfold specFill at h
  cases hL : lastObsOnCal R cal c with
  | some v =>
    rw [hL] at h
    have hv : v = x := Option.some.inj h
    subst hv
    have hmem : v ∈ (cal.filter fun d => decide (d ≤ c)).filterMap (lookup R) :=
      App.mem_of_getLast?_eq hL
    obtain ⟨d, hd, hld⟩ := List.mem_filterMap.mp hmem
    exact lookup_some_mem R d v hld
  | none =>
    rw [hL] at h
    unfold firstObsOnCal at h
    have hmem : x ∈ cal.filterMap (lookup R) := by
      cases hcase : cal.filterMap (lookup R) with
      | nil => rw [hcase] at h; cases h
      | cons y t =>
        rw [hcase] at h
        have hy : y = x := Option.some.inj h
        rw [← hy]
        exact List.mem_cons_self _ _
    obtain ⟨d, hd, hld⟩ := List.mem_filterMap.mp hmem
    exact lookup_some_mem R d x hld

end DataManager

/-- C9 counterexample: the aligned closing value is not always the most
recent earlier genuine observation, and not always positive.  With
calendar [0, 2] and observations (0, 1) and (1, 5), both in range, the
observation at date 1 is dropped by the reindex because 1 is not a
calendar date: the output close at date 2 is 1, while the most recent
earlier genuine observation at or before 2 is (1, 5) with value 5.
And with calendar [5] and the in-range observation (0, 1), no
observation lies on the calendar, so the aligned close is NaN (none),
not a positive real. -/
theorem alignment_counterexample :
    DataManager.get_fund_history [(0, 1), (1, 5)] [0, 2] 0 2
      = some [(0, some 1), (2, some 1)] ∧
    Monitor.argmaxDate ([(0, 1), (1, 5)].filter fun p => decide (p.1 ≤ 2))
      = some (1, 5) ∧
    DataManager.get_fund_history [(0, 1)] [5] 0 9 = some [(5, none)] := by
  refine ⟨?_, ?_, ?_⟩ <;> with_unfolding_all rfl

/-- C9 amended: alignment postcondition restricted to on-calendar
observations.  For a sorted trading calendar, whenever get_fund_history
returns an aligned frame: the output dates are exactly the calendar
(contiguous at trading-day granularity, no gaps); every closing value
equals the most recent earlier in-range observation lying on the
calendar, or the first such observation for leading gaps (observations
off the calendar grid are discarded by the reindex); every defined
closing value is positive when the raw observations are positive; and
when at least one in-range observation lies on the calendar, every
closing value is defined (not NaN). -/
theorem alignment_amended (obs : List (ℕ × ℚ)) (cal : List ℕ) (startD endD : ℕ)
    (out : List (ℕ × Option ℚ))
    (hcal : cal.Pairwise (· < ·))
    (hout : DataManager.get_fund_history obs cal startD endD = some out)
    (hpos : ∀ p ∈ obs, 0 < p.2) :
    out.map Prod.fst = cal ∧
    (∀ pr ∈ out, pr.2 = DataManager.specFill
      (obs.filter fun p => decide (startD ≤ p.1 ∧ p.1 ≤ endD)) cal pr.1) ∧
    (∀ pr ∈ out, ∀ x : ℚ, pr.2 = some x → 0 < x) ∧
    ((DataManager.firstObsOnCal
        (obs.filter fun p => decide (startD ≤ p.1 ∧ p.1 ≤ endD)) cal).isSome →
      ∀ pr ∈ out, pr.2.isSome) := by
  have hform : out = cal.map fun c => (c, DataManager.specFill
      (obs.filter fun p => decide (startD ≤ p.1 ∧ p.1 ≤ endD)) cal c) := by
    rw [DataManager.get_fund_history_some obs cal startD endD out hout,
      DataManager.filled_eq_specFill _ cal hcal, DataManager.zip_map_self]
  have hval : ∀ pr ∈ out, pr.2 = DataManager.specFill
      (obs.filter fun p => decide (startD ≤ p.1 ∧ p.1 ≤ endD)) cal pr.1 := by
    intro pr hpr
    rw [hform] at hpr
    obtain ⟨c, hc, hceq⟩ := List.mem_map.mp hpr
    rw [← hceq]
  refine ⟨?_, hval, ?_, ?_⟩
  · rw [hform, List.map_map]
    have hid : (Prod.fst ∘ fun c => ((c, DataManager.specFill
        (obs.filter fun p => decide (startD ≤ p.1 ∧ p.1 ≤ endD)) cal c) : ℕ × Option ℚ))
        = id := rfl
    rw [hid, List.map_id]
  · intro pr hpr x hx
    rw [hval pr hpr] at hx
    obtain ⟨p, hpR, hpx⟩ := DataManager.specFill_some_mem _ cal pr.1 x hx
    have hpobs : p ∈ obs := (List.mem_filter.mp hpR).1
    rw [← hpx]
    exact hpos p hpobs
  · intro hfirst pr hpr
    rw [hval pr hpr]
    unfold DataManager.specFill
    cases hL : DataManager.lastObsOnCal
        (obs.filter fun p => decide (startD ≤ p.1 ∧ p.1 ≤ endD)) cal pr.1 with
    | some v => rfl
    | none => exact hfirst

/-- Witness for the amended C9 theorem: observations at dates 0 and 2
with calendar [0, 1, 2]; the aligned frame forward-fills date 1 from
date 0's value. -/
theorem alignment_amended_witness :
    ([((0 : ℕ), some (1 : ℚ)), (1, some 1), (2, some 5)]).map Prod.fst = [0, 1, 2] ∧
    (∀ pr ∈ ([((0 : ℕ), some (1 : ℚ)), (1, some 1), (2, some 5)]),
      pr.2 = DataManager.specFill
        (([((0 : ℕ), (1 : ℚ)), (2, 5)]).filter fun p => decide (0 ≤ p.1 ∧ p.1 ≤ 2))
        [0, 1, 2] pr.1) ∧
    (∀ pr ∈ ([((0 : ℕ), some (1 : ℚ)), (1, some 1), (2, some 5)]),
      ∀ x : ℚ, pr.2 = some x → 0 < x) ∧
    ((DataManager.firstObsOnCal
        (([((0 : ℕ), (1 : ℚ)), (2, 5)]).filter fun p => decide (0 ≤ p.1 ∧ p.1 ≤ 2))
        [0, 1, 2]).isSome →
      ∀ pr ∈ ([((0 : ℕ), some (1 : ℚ)), (1, some 1), (2, some 5)]), pr.2.isSome) :=
  alignment_amended [(0, 1), (2, 5)] [0, 1, 2] 0 2
    [(0, some 1), (1, some 1), (2, some 5)]
    (by decide) (by with_unfolding_all rfl)
    (by intro p hp; fin_cases hp <;> norm_num)

/-- C4 counterexample: the sell-over-buy priority fails in
FundBacktester._simulate_threshold_strategy, one of the two cited
threshold implementations, because there the buy condition is checked
first.  With navs [1,1,1], lookback 1, buy_threshold 5, sell_threshold
-5 and initial amount 100, the state before date 2 is 20 shares and 80
cash, the lookback return at date 2 is 0, so the claim's sell condition
(0 >= -5 with shares > 0) and buy condition (0 <= 5) hold
simultaneously, yet the recorded action at date 2 is buy, not sell. -/
theorem sell_priority_counterexample :
    (FundBacktest.simulate_threshold_strategy 100 5 (-5) 1 [1, 1, 1]).2
      = [Decision.hold, Decision.buy, Decision.buy] ∧
    (FundBacktest.simRun 100 5 (-5) 1 [1, 1, 1] [0, 1] ⟨0, 100⟩).1
      = (⟨20, 80⟩ : FundBacktest.SimState) ∧
    (FundBacktest.simStep 100 5 (-5) 1 [1, 1, 1] 2 ⟨20, 80⟩).2 = Decision.buy ∧
    (-5 : ℚ) ≤ (((1 : ℚ) / 1 - 1) * 100) ∧ (((1 : ℚ) / 1 - 1) * 100) ≤ 5 :=
  ⟨by with_unfolding_all rfl, by with_unfolding_all rfl, by with_unfolding_all rfl,
    by norm_num, by norm_num⟩

/-- C4 amended: sell-over-buy priority does hold in the app.run_backtest
threshold loop (the other cited implementation): at any date with a
defined lookback return on a trading day where the sell condition
(shares > 0 and return >= sell_threshold) and the buy condition
(return <= buy_threshold) hold simultaneously, the step's action is
sell.  In _simulate_threshold_strategy the buy branch is checked first,
so with positive cash the simultaneous trigger yields buy instead. -/
theorem sell_priority_amended (P : App.ThrParams) (rows : List App.Row) (i : ℕ)
    (st : App.ThrState) (r : ℚ)
    (hret : App.lookbackReturn (rows.map App.Row.nav) P.lookback i = some r)
    (htrade : (rows.getD i ⟨0, false⟩).isTradingDay = true)
    (hsh : 0 < st.shares) (hsell : P.sellThreshold ≤ r) (hbuy : r ≤ P.buyThreshold) :
    (App.thrStep P rows i st).act = Decision.sell := by
  have hc : App.thrClassify r P.buyThreshold P.sellThreshold st.shares = Decision.sell := by
    unfold App.thrClassify
    rw [if_pos ⟨hsh, hsell⟩]
  simp only [App.thrStep, hret, htrade, hc]

/-- Witness for the amended C4 theorem: constant NAVs, lookback 1,
buy_threshold 5, sell_threshold -5, one share held. -/
theorem sell_priority_amended_witness :
    (App.thrStep ⟨1000, 5, -5, 1⟩ [⟨1, true⟩, ⟨1, true⟩] 1 ⟨0, 1, 0⟩).act = Decision.sell :=
  sell_priority_amended ⟨1000, 5, -5, 1⟩ [⟨1, true⟩, ⟨1, true⟩] 1 ⟨0, 1, 0⟩ 0
    (by with_unfolding_all rfl) rfl (by norm_num) (by norm_num) (by norm_num)

/-- Witness for the amended C1 theorem at concrete inputs. -/
theorem advisory_backtest_amended_witness :
    Monitor.adviceClassify 0 (-5) 5 = App.thrClassify 0 (-5) 5 1 ∧
    ((0 : ℕ), (2 : ℚ)) ∈ [((0 : ℕ), (2 : ℚ))] ∧ 0 ≤ 3 - 1 ∧
      ∀ q ∈ [((0 : ℕ), (2 : ℚ))], q.1 ≤ 3 - 1 → q.1 ≤ 0 :=
  advisory_backtest_amended 0 (-5) 5 1 [(0, 2)] 3 1 0 2 (by norm_num)
    (Or.inl (by norm_num)) (by with_unfolding_all rfl)
